import Mathlib

/-!
Verification of the iteration-engine core of the `@oxog/foreach` library
(`src/core/foreach.ts`, `src/core/foreach-async.ts`, `src/core/foreach-chunked.ts`,
`src/core/foreach-lazy.ts`) against its natural-language specification.

JavaScript values are modelled as follows:
* a possibly-sparse array is a `List (Option α)`; `none` is a hole, and reading a
  hole with `items[i]` yields `undefined` (also modelled by `none`);
* a plain object is a `List (String × Option α)`: its own enumerable string keys
  in `Object.keys` enumeration order, each paired with its value, where the
  value `none` models `undefined`;
* a callback invocation either returns a value (`undefined` modelled as `none`)
  or throws an error of an opaque caller type `ε`.
-/

set_option maxRecDepth 8000

namespace ForEachSpec

/-- Outcome of one synchronous callback invocation: the callback either
returns (`ret r`, with `r = none` standing for `undefined`) or throws
an opaque caller error (`exn e`). -/
inductive CbRes (ε ρ : Type) : Type where
  | ret : Option ρ → CbRes ε ρ
  | exn : ε → CbRes ε ρ
deriving DecidableEq, Repr

/-- The errors an engine call can surface, mirroring `src/types/errors.ts`
and the throw sites in the engines:
* `iterAtIndex i e` / `iterAtKey k e` — a `ForEachError` with code
  `ITERATION_ERROR` whose `details` carry the failing index/key and the
  original error `e` (thrown by `forEach` / `forEachAsync`);
* `timeoutAtIndex i` / `timeoutAtKey k` — a `TimeoutError` manufactured by
  `withTimeout`, whose context names the index/key;
* `raw e` — the caller's original error rethrown unwrapped
  (`throw error` in the chunked and parallel engines). -/
inductive EngineError (ε : Type) : Type where
  | iterAtIndex : Nat → ε → EngineError ε
  | iterAtKey : String → ε → EngineError ε
  | timeoutAtIndex : Nat → EngineError ε
  | timeoutAtKey : String → EngineError ε
  | raw : ε → EngineError ε
deriving DecidableEq, Repr

/-- The sync-engine options recognized by `forEach` (`IForEachOptions`),
with the defaults the code applies by destructuring an empty object. -/
structure ForEachOptions where
  breakOnError : Bool := false
  breakOnReturn : Bool := false
  reverse : Bool := false

/-- Loop body of `forEachArray` (src/core/foreach.ts, lines 73-109).
The working view `items` is traversed left to right with loop counter `i`;
`actualIndex` is `length - 1 - i` under `reverse`, else `i`.  This version
reads `items[i]` without an `i in items` check — the source comments
`// Process all indices, including holes as undefined` — so a hole reaches
the callback as `undefined` (`none`).  The `IterationContextImpl` created
per element is never handed to the callback, so its `shouldBreak` /
`shouldSkip` flags are constantly `false` and are elided here.
Returns the invocation trace (list of `(actualIndex, argument)` pairs,
in invocation order) together with the call's outcome. -/
def forEachArrayGo (cb : Option α → Nat → CbRes ε ρ) (opts : ForEachOptions)
    (len : Nat) :
    List (Option α) → Nat → List (Nat × Option α) × Except (EngineError ε) Unit
  | [], _ => ([], .ok ())
  | item :: rest, i =>
    let actualIndex := if opts.reverse then len - 1 - i else i
    match cb item actualIndex with
    | .ret r =>
      if opts.breakOnReturn && r.isSome then ([(actualIndex, item)], .ok ())
      else
        let r2 := forEachArrayGo cb opts len rest (i + 1)
        ((actualIndex, item) :: r2.1, r2.2)
    | .exn e =>
      if opts.breakOnError then
        ([(actualIndex, item)], .error (.iterAtIndex actualIndex e))
      else
        let r2 := forEachArrayGo cb opts len rest (i + 1)
        ((actualIndex, item) :: r2.1, r2.2)

/-- `forEachArray` (src/core/foreach.ts): the working view is
`array.slice().reverse()` under `reverse` (a fresh copy — the aliasing side
is treated in the store model below), else the array itself. -/
def forEachArray (arr : List (Option α)) (cb : Option α → Nat → CbRes ε ρ)
    (opts : ForEachOptions) :
    List (Nat × Option α) × Except (EngineError ε) Unit :=
  let items := if opts.reverse then arr.reverse else arr
  forEachArrayGo cb opts items.length items 0

/-- Loop body of `forEachObject` (src/core/foreach.ts, lines 111-150) over the
(possibly reversed) key list.  Keys produced by `Object.keys` are never
`null`, so the `key == null` guard is constantly false and elided; the
`hasOwnProperty` guard is the `lookup` returning `some`; a key whose value is
`undefined` (`some none`) is skipped before the callback fires. -/
def forEachObjectGo (object : List (String × Option α))
    (cb : α → String → CbRes ε ρ) (opts : ForEachOptions) :
    List String → List (String × α) × Except (EngineError ε) Unit
  | [] => ([], .ok ())
  | key :: rest =>
    match object.lookup key with
    | none => forEachObjectGo object cb opts rest
    | some none => forEachObjectGo object cb opts rest
    | some (some v) =>
      match cb v key with
      | .ret r =>
        if opts.breakOnReturn && r.isSome then ([(key, v)], .ok ())
        else
          let r2 := forEachObjectGo object cb opts rest
          ((key, v) :: r2.1, r2.2)
      | .exn e =>
        if opts.breakOnError then ([(key, v)], .error (.iterAtKey key e))
        else
          let r2 := forEachObjectGo object cb opts rest
          ((key, v) :: r2.1, r2.2)

/-- `forEachObject` (src/core/foreach.ts): `keys = Object.keys(object)`,
reversed in place when `reverse` is set (`keys` is a fresh array, so the
caller's object is untouched). -/
def forEachObject (object : List (String × Option α))
    (cb : α → String → CbRes ε ρ) (opts : ForEachOptions) :
    List (String × α) × Except (EngineError ε) Unit :=
  let keys := object.map Prod.fst
  let items := if opts.reverse then keys.reverse else keys
  forEachObjectGo object cb opts items

/-- Options recognized by `forEachAsync` (`IAsyncForEachOptions`), with the
defaults the code applies.  `timeout` is the per-element deadline in
milliseconds; the code guards the race with JS truthiness (`timeout ? … : …`),
so `none` and `some 0` both disable it. -/
structure AsyncOptions where
  breakOnError : Bool := false
  breakOnReturn : Bool := false
  reverse : Bool := false
  timeout : Option Nat := none

/-- Whether the `withTimeout` race (src/core/foreach-chunked.ts companion
file, `withTimeout`) settles with a `TimeoutError`: the deadline is armed
(truthy `timeout`) and the callback's natural settlement takes longer than
the deadline. -/
def timedOut (timeout : Option Nat) (d : Nat) : Bool :=
  match timeout with
  | none => false
  | some t => decide (0 < t) && decide (t < d)

/-- Loop body of `forEachArrayAsync` (src/core/foreach-async.ts).  An async
callback invocation is modelled as a pair `(duration, settlement)`: how long
the returned promise takes to settle and whether it fulfills (`ret`) or
rejects (`exn`).  Unlike the sync engine, this loop skips holes
(`if (!(i in items)) continue`).  A `TimeoutError` from the race is rethrown
before the `breakOnError` test (`if (error instanceof TimeoutError) throw`),
so timeouts always abort; other errors are wrapped in a `ForEachError`
carrying the index when `breakOnError` is set, else swallowed. -/
def forEachArrayAsyncGo (acb : α → Nat → Nat × CbRes ε ρ) (opts : AsyncOptions)
    (len : Nat) :
    List (Option α) → Nat → List (Nat × α) × Except (EngineError ε) Unit
  | [], _ => ([], .ok ())
  | none :: rest, i => forEachArrayAsyncGo acb opts len rest (i + 1)
  | some v :: rest, i =>
    let actualIndex := if opts.reverse then len - 1 - i else i
    if timedOut opts.timeout (acb v actualIndex).1 then
      ([(actualIndex, v)], .error (.timeoutAtIndex actualIndex))
    else
      match (acb v actualIndex).2 with
      | .ret r =>
        if opts.breakOnReturn && r.isSome then ([(actualIndex, v)], .ok ())
        else
          let r2 := forEachArrayAsyncGo acb opts len rest (i + 1)
          ((actualIndex, v) :: r2.1, r2.2)
      | .exn e =>
        if opts.breakOnError then
          ([(actualIndex, v)], .error (.iterAtIndex actualIndex e))
        else
          let r2 := forEachArrayAsyncGo acb opts len rest (i + 1)
          ((actualIndex, v) :: r2.1, r2.2)

/-- `forEachArrayAsync` (src/core/foreach-async.ts). -/
def forEachArrayAsync (arr : List (Option α)) (acb : α → Nat → Nat × CbRes ε ρ)
    (opts : AsyncOptions) :
    List (Nat × α) × Except (EngineError ε) Unit :=
  let items := if opts.reverse then arr.reverse else arr
  forEachArrayAsyncGo acb opts items.length items 0

/-- Loop body of `forEachObjectAsync` (src/core/foreach-async.ts): like the
sync object loop it skips non-own keys and `undefined`-valued keys, and like
the async array loop it races each invocation against the optional deadline,
rethrowing timeouts unconditionally. -/
def forEachObjectAsyncGo (object : List (String × Option α))
    (acb : α → String → Nat × CbRes ε ρ) (opts : AsyncOptions) :
    List String → List (String × α) × Except (EngineError ε) Unit
  | [] => ([], .ok ())
  | key :: rest =>
    match object.lookup key with
    | none => forEachObjectAsyncGo object acb opts rest
    | some none => forEachObjectAsyncGo object acb opts rest
    | some (some v) =>
      if timedOut opts.timeout (acb v key).1 then
        ([(key, v)], .error (.timeoutAtKey key))
      else
        match (acb v key).2 with
        | .ret r =>
          if opts.breakOnReturn && r.isSome then ([(key, v)], .ok ())
          else
            let r2 := forEachObjectAsyncGo object acb opts rest
            ((key, v) :: r2.1, r2.2)
        | .exn e =>
          if opts.breakOnError then ([(key, v)], .error (.iterAtKey key e))
          else
            let r2 := forEachObjectAsyncGo object acb opts rest
            ((key, v) :: r2.1, r2.2)

/-- `forEachObjectAsync` (src/core/foreach-async.ts). -/
def forEachObjectAsync (object : List (String × Option α))
    (acb : α → String → Nat × CbRes ε ρ) (opts : AsyncOptions) :
    List (String × α) × Except (EngineError ε) Unit :=
  let keys := object.map Prod.fst
  let items := if opts.reverse then keys.reverse else keys
  forEachObjectAsyncGo object acb opts items

/-- The dense array `[1,2,3,4,5]` of property P3/P4. -/
def oneToFive : List (Option Nat) := [some 1, some 2, some 3, some 4, some 5]

/-- A callback that throws exactly on element `3` and otherwise returns
`undefined`. -/
def cbThrowOn3 : Option Nat → Nat → CbRes String Unit := fun v _ =>
  if v = some 3 then .exn "boom" else .ret none

/-- `createChunks` (src/core/foreach-async.ts, lines 773-779): consecutive
slices of `size` elements, produced by the loop
`for (let i = 0; i < array.length; i += size) chunks.push(array.slice(i, i + size))`.
The same slicing appears inline (via start/end index arithmetic) in the
chunked engines.  The loop consumes at least one element per iteration, so
the list's length bounds the iteration count; the recursion is made
structural on that fuel.  Validation guarantees a positive `size` (the JS
loop would not terminate at `size = 0`; the model then behaves like `1`). -/
def createChunksGo (size : Nat) : Nat → List β → List (List β)
  | 0, _ => []
  | _, [] => []
  | fuel + 1, x :: xs =>
    (x :: xs.take (size - 1)) :: createChunksGo size fuel (xs.drop (size - 1))

/-- See `createChunksGo`. -/
def createChunks (size : Nat) (l : List β) : List (List β) :=
  createChunksGo size l.length l

/-- Options recognized by `forEachParallel`, with the defaults applied at the
destructuring `const { concurrency = 10, preserveOrder = false } = options`. -/
structure ParallelOptions where
  breakOnError : Bool := false
  reverse : Bool := false
  timeout : Option Nat := none
  concurrency : Nat := 10
  preserveOrder : Bool := false

/-- The grouped branch's `items.map((item, i) => ({ item, originalIndex: i }))`
(src/core/foreach-async.ts, BUG-001 fix): JS `Array.prototype.map` skips
holes but keeps them as holes in its result, so positions — and hence the
chunk boundaries drawn by `createChunks` — still count them. -/
def indexedItems (items : List (Option α)) : List (Option (α × Nat)) :=
  items.enum.map (fun p => p.2.map (fun v => (v, p.1)))

/-- Settlement of one launched element promise in `forEachArrayParallel`
(both modes run this body): `none` means the promise fulfills, `some err`
that it rejects with `err`.  A `TimeoutError` from the race always rejects
(`if (error instanceof TimeoutError) throw error`); a callback error rejects
only under `breakOnError`, otherwise the element's own `catch` swallows it
("Silently continue if breakOnError is false"). -/
def parallelElemOutcome (timeout : Option Nat) (breakOnError : Bool)
    (acb : α → Nat → Nat × CbRes ε ρ) (v : α) (actualIndex : Nat) :
    Option (EngineError ε) :=
  if timedOut timeout (acb v actualIndex).1 then some (.timeoutAtIndex actualIndex)
  else
    match (acb v actualIndex).2 with
    | .ret _ => none
    | .exn e => if breakOnError then some (.raw e) else none

/-- The rejections produced by one launch group of the grouped fan-out mode,
in launch order (holes were skipped by `map` and never launch). -/
def chunkRejections (timeout : Option Nat) (breakOnError reverse : Bool)
    (len : Nat) (acb : α → Nat → Nat × CbRes ε ρ)
    (chunk : List (Option (α × Nat))) : List (EngineError ε) :=
  chunk.filterMap (fun o =>
    o.bind (fun p =>
      parallelElemOutcome timeout breakOnError acb p.1
        (if reverse then len - 1 - p.2 else p.2)))

/-- The grouped fan-out loop of `forEachArrayParallel` (`preserveOrder`
false): one `Promise.all` barrier per chunk; a rejected barrier propagates
(the outer `catch` rethrows a `TimeoutError` unconditionally and anything
else under `breakOnError`; under `breakOnError = false` only timeouts can
reach the barrier at all, so every rejection propagates) and later chunks
never launch.  `Promise.all` settles with the temporally first rejection;
this model canonically reports the first rejection in launch order.  The
theorems below invoke it only where that choice is irrelevant: either every
possible rejection of a chunk has the stated shape, or at most one element
of the input can reject. -/
def parallelGroupedRun (timeout : Option Nat) (breakOnError reverse : Bool)
    (len : Nat) (acb : α → Nat → Nat × CbRes ε ρ) :
    List (List (Option (α × Nat))) → Except (EngineError ε) Unit
  | [] => .ok ()
  | c :: cs =>
    match (chunkRejections timeout breakOnError reverse len acb c).head? with
    | some err => .error err
    | none => parallelGroupedRun timeout breakOnError reverse len acb cs

/-- The rejections of the admission-queue mode (`preserveOrder = true`), in
admission order: every position immediately queues on the semaphore; a hole
releases its slot and fulfills (`if (!(i in items)) { release(); return; }`);
present elements run the shared body.  The semaphore shapes timing, not
which promises reject. -/
def orderedRejections (timeout : Option Nat) (breakOnError reverse : Bool)
    (len : Nat) (acb : α → Nat → Nat × CbRes ε ρ)
    (items : List (Option α)) : List (EngineError ε) :=
  items.enum.filterMap (fun p =>
    p.2.bind (fun v =>
      parallelElemOutcome timeout breakOnError acb v
        (if reverse then len - 1 - p.1 else p.1)))

/-- `forEachArrayParallel` (src/core/foreach-async.ts, lines 516-627): the
working view, then either the admission-queue mode (a single `Promise.all`
over all element promises) or the grouped fan-out mode (chunks of
`concurrency` elements with a barrier each). -/
def forEachArrayParallel (arr : List (Option α))
    (acb : α → Nat → Nat × CbRes ε ρ) (opts : ParallelOptions) :
    Except (EngineError ε) Unit :=
  let items := if opts.reverse then arr.reverse else arr
  let len := items.length
  if opts.preserveOrder then
    match (orderedRejections opts.timeout opts.breakOnError opts.reverse len
        acb items).head? with
    | some err => .error err
    | none => .ok ()
  else
    parallelGroupedRun opts.timeout opts.breakOnError opts.reverse len acb
      (createChunks opts.concurrency (indexedItems items))

/-- Options recognized by `forEachChunked` (`IChunkedOptions` combined with
the shared flags it reads). -/
structure ChunkedOptions where
  chunkSize : Nat
  breakOnError : Bool := false
  reverse : Bool := false

/-- Inner element loop of one window of `forEachArrayChunked`
(src/core/foreach-chunked.ts, lines 66-82), over `(position, item)` pairs of
the enumerated working view.  Holes are skipped
(`if (!(i in items)) continue`); a successful callback bumps the window's
`processedInChunk`; a throwing callback is swallowed unless `breakOnError`,
in which case the ORIGINAL error is rethrown unwrapped (`throw error`).
Returns (invocations, processed count, escaping error). -/
def chunkedWindowGo (cb : α → Nat → CbRes ε ρ) (breakOnError reverse : Bool)
    (len : Nat) : List (Nat × Option α) → List (Nat × α) × Nat × Option ε
  | [] => ([], 0, none)
  | (_, none) :: rest => chunkedWindowGo cb breakOnError reverse len rest
  | (i, some v) :: rest =>
    let actualIndex := if reverse then len - 1 - i else i
    match cb v actualIndex with
    | .ret _ =>
      let r2 := chunkedWindowGo cb breakOnError reverse len rest
      ((actualIndex, v) :: r2.1, r2.2.1 + 1, r2.2.2)
    | .exn e =>
      if breakOnError then ([(actualIndex, v)], 0, some e)
      else
        let r2 := chunkedWindowGo cb breakOnError reverse len rest
        ((actualIndex, v) :: r2.1, r2.2.1, r2.2.2)

/-- Window loop of `forEachArrayChunked`: windows run strictly in order;
after a window completes, `onChunkComplete(chunkIndex, processedInChunk)`
is recorded; an escaping error aborts the whole call before that window's
`onChunkComplete` fires.  Returns (invocations, `onChunkComplete` calls,
outcome). -/
def chunkedRun (cb : α → Nat → CbRes ε ρ) (breakOnError reverse : Bool)
    (len : Nat) :
    List (List (Nat × Option α)) → Nat →
      List (Nat × α) × List (Nat × Nat) × Except (EngineError ε) Unit
  | [], _ => ([], [], .ok ())
  | w :: ws, ci =>
    match chunkedWindowGo cb breakOnError reverse len w with
    | (tr, _, some e) => (tr, [], .error (.raw e))
    | (tr, cnt, none) =>
      let r2 := chunkedRun cb breakOnError reverse len ws (ci + 1)
      (tr ++ r2.1, (ci, cnt) :: r2.2.1, r2.2.2)

/-- `forEachArrayChunked` (src/core/foreach-chunked.ts, lines 51-88): the
working view is partitioned into `Math.ceil(length / chunkSize)` windows by
start/end index arithmetic — the same slices `createChunks` produces over the
enumerated view, which keeps each element's global position for the
`actualIndex` computation and the hole test. -/
def forEachArrayChunked (arr : List (Option α)) (cb : α → Nat → CbRes ε ρ)
    (opts : ChunkedOptions) :
    List (Nat × α) × List (Nat × Nat) × Except (EngineError ε) Unit :=
  let items := if opts.reverse then arr.reverse else arr
  chunkedRun cb opts.breakOnError opts.reverse items.length
    (createChunks opts.chunkSize items.enum) 0

/-- A sparse array of length 5 with values only at positions 1 and 3. -/
def sparse5 (a b : α) : List (Option α) := [none, some a, none, some b, none]

/-- One scheduling event inside a window of `forEachArrayChunkedAsync` with
`concurrency > 1` (src/core/foreach-chunked.ts, lines 190-212).  `launch i`
is the synchronous start of the async closure for the element at global
position `i`: the closure invokes the callback immediately and suspends at
`await callback.call(…)`.  `joinAll` is the window's single
`await Promise.all(promises)`. -/
inductive WindowEvent : Type where
  | launch : Nat → WindowEvent
  | joinAll : WindowEvent
deriving DecidableEq, Repr

/-- The `concurrency > 1` branch of one window: the batch loop
`for (let i = start; i < end; i += concurrency)` slices
`batch = items.slice(i, Math.min(i + concurrency, end))` and calls
`batch.map(async (item, batchIndex) => …)`, which launches every present
element of the batch at once (`map` skips holes) and pushes the resulting
promises onto `promises`; NO `await` occurs inside the loop.  After the loop
the single barrier `await Promise.all(promises)` runs.  `window` is the
window's `(global position, item)` pairs. -/
def windowEventsConcurrent (concurrency : Nat)
    (window : List (Nat × Option α)) : List WindowEvent :=
  ((createChunks concurrency window).map (fun batch =>
    batch.filterMap (fun p => p.2.map (fun _ => WindowEvent.launch p.1)))).flatten
    ++ [WindowEvent.joinAll]

/-- The number of callbacks launched before the first join barrier.  For
callbacks that stay pending until the barrier (e.g. all awaiting a later
timer), this is the number of simultaneously in-flight callbacks when the
barrier is reached. -/
def launchesBeforeFirstJoin (evs : List WindowEvent) : Nat :=
  (evs.takeWhile (fun ev => ev != WindowEvent.joinAll)).length

/-- The lazy-iterator options (`ILazyOptions` plus the `reverse` flag
`forEachLazy` forwards), as read by `BaseLazyIterator`'s constructor:
`this._bufferSize = options.bufferSize || 10` (JS `||`: both absent and `0`
fall back to 10) and `this._preloadNext = options.preloadNext ?? true`. -/
structure LazyOptions where
  bufferSize : Option Nat := none
  preloadNext : Option Bool := none
  reverse : Bool := false

/-- Effective `_bufferSize` (`options.bufferSize || 10`). -/
def effBufferSize (o : LazyOptions) : Nat :=
  match o.bufferSize with
  | none => 10
  | some 0 => 10
  | some b => b

/-- Effective `_preloadNext` (`options.preloadNext ?? true`). -/
def effPreloadNext (o : LazyOptions) : Bool := o.preloadNext.getD true

/-- Observable work performed while CONSTRUCTING a lazy chain: how many
source elements are read (the `[[Get]]`s issued by `Array.prototype.slice`),
and how many times the `filter` predicate / `map` transform were evaluated. -/
structure ConstructEffects where
  sourceReads : Nat
  predEvals : Nat
  mapEvals : Nat
deriving DecidableEq, Repr

/-- Source-element reads performed by `ArrayLazyIterator`'s constructor
(src/core/foreach-lazy.ts, lines 53-62 and `_preloadBuffer`, lines 82-91):
when `_preloadNext` is on (the default) the constructor immediately fills
`_buffer` with a slice — forward:
`slice(start, Math.min(length, start + bufferSize))` from `start = 0`;
reverse: `slice(Math.max(0, start - bufferSize), start + 1)` from
`start = length - 1` — reading every sliced element.  (`_buffer` is never
consulted by `next()`; these reads are its only observable effect.) -/
def arrayLazyConstructReads (len : Nat) (o : LazyOptions) : Nat :=
  if effPreloadNext o then
    if o.reverse then
      let start : Int := (len : Int) - 1
      let stop : Int := max 0 (start - (effBufferSize o : Int))
      ((start + 1) - stop).toNat
    else
      let start : Int := 0
      let stop : Int := min (len : Int) (start + (effBufferSize o : Int))
      (stop - start).toNat
  else 0

/-- Construction effects of `forEachLazy(source)` over an array of length
`len`: only the preload reads. -/
def forEachLazyConstructEffects (len : Nat) (o : LazyOptions) :
    ConstructEffects :=
  { sourceReads := arrayLazyConstructReads len o, predEvals := 0,
    mapEvals := 0 }

/-- Construction effects of `.filter(p)` — `FilterLazyIterator`'s
constructor only stores `_source` and `_predicate` (lines 169-175). -/
def filterConstructEffects : ConstructEffects := ⟨0, 0, 0⟩

/-- Construction effects of `.map(f)` — `MapLazyIterator`'s constructor only
stores `_source` and `_transform` (lines 188-194). -/
def mapConstructEffects : ConstructEffects := ⟨0, 0, 0⟩

/-- Componentwise sum of effects. -/
def addEffects (a b : ConstructEffects) : ConstructEffects :=
  ⟨a.sourceReads + b.sourceReads, a.predEvals + b.predEvals,
    a.mapEvals + b.mapEvals⟩

/-- Total construction effects of `forEachLazy(source).filter(p).map(f)`. -/
def lazyChainConstructEffects (len : Nat) (o : LazyOptions) :
    ConstructEffects :=
  addEffects (addEffects (forEachLazyConstructEffects len o)
    filterConstructEffects) mapConstructEffects

/-- A pull-based lazy stage: a state type, the `next` operation — returning
the successor state and `some value`, or `none` mirroring
`{done: true, value: undefined}` — and a termination measure that strictly
decreases on every successful pull.  The measure justifies the unbounded
upstream loops in `filter`/`skip` and the drain in `toArray`; it is proof
data only and does not influence any computed value. -/
structure PIter (α : Type) : Type 1 where
  σ : Type
  next : σ → σ × Option α
  measure : σ → Nat
  hmeas : ∀ s v, (next s).2 = some v → measure (next s).1 < measure s

/-- `ArrayLazyIterator.next` (src/core/foreach-lazy.ts, lines 64-80): the
state is `_currentIndex` (an `Int`: the reverse iterator runs it down to
`-1`); forward pulls report done at `currentIndex >= length`, reverse pulls
at `currentIndex < 0`; otherwise the element at the index is yielded and the
index moves by one.  `getD … default` is the read `this._array[i]`; for
every state reachable from the initial index it is in range (`default`
stands for the `undefined` an out-of-range read would produce). -/
def arrayNext [Inhabited α] (arr : List α) (reverse : Bool) (s : Int) :
    Int × Option α :=
  if reverse then
    if s < 0 then (s, none)
    else (s - 1, some (arr.getD s.toNat default))
  else
    if (arr.length : Int) ≤ s then (s, none)
    else (s + 1, some (arr.getD s.toNat default))

/-- Pulls remaining before exhaustion, from state `s`. -/
def arrayMeasure (arr : List α) (reverse : Bool) (s : Int) : Nat :=
  if reverse then (s + 1).toNat else ((arr.length : Int) - s).toNat

/-- `_currentIndex` as initialized by the constructor
(`reverse ? array.length - 1 : 0`). -/
def arrayIterInit (arr : List α) (reverse : Bool) : Int :=
  if reverse then (arr.length : Int) - 1 else 0

/-- The array root stage. -/
def arrayIter [Inhabited α] (arr : List α) (reverse : Bool) : PIter α where
  σ := Int
  next := arrayNext arr reverse
  measure := arrayMeasure arr reverse
  hmeas := by
    intro s v h
    unfold arrayNext at h ⊢
    unfold arrayMeasure
    cases reverse
    · simp only [Bool.false_eq_true, if_false] at h ⊢
      by_cases hs : (arr.length : Int) ≤ s
      · simp [hs] at h
      · simp only [hs, if_false]
        omega
    · simp only [if_true] at h ⊢
      by_cases hs : s < 0
      · simp [hs] at h
      · simp only [hs, if_false]
        omega

/-- `this._keys` of `ObjectLazyIterator` (lines 98-106): `Object.keys`,
reversed in place when `reverse` (the keys array is fresh, so the caller's
object is untouched). -/
def objectKeys (entries : List (String × γ)) (reverse : Bool) : List String :=
  if reverse then (entries.map Prod.fst).reverse else entries.map Prod.fst

/-- `ObjectLazyIterator.next` (lines 108-120): the while loop advances
`_currentIndex` past any key that fails the `hasOwnProperty` check (the
`lookup` returning `none`) and yields `[key, object[key]]` for the first own
key; past the end it reports done.  The value is yielded even when it is
`undefined` — there is NO undefined-value skip here, unlike the eager object
engines. -/
def objectNextGo (entries : List (String × γ)) (keys : List String)
    (idx : Nat) : Nat × Option (String × γ) :=
  if h : idx < keys.length then
    match entries.lookup (keys.get ⟨idx, h⟩) with
    | some v => (idx + 1, some (keys.get ⟨idx, h⟩, v))
    | none => objectNextGo entries keys (idx + 1)
  else (idx, none)
termination_by keys.length - idx

/-- `TakeLazyIterator.next` (lines 133-143): the state pairs the upstream
state with `_taken`; at `_taken ≥ _count` it reports done WITHOUT touching
upstream; otherwise it forwards one upstream pull, counting successes. -/
def takeNext {σ α : Type} (next : σ → σ × Option α) (count : Nat)
    (sp : σ × Nat) : (σ × Nat) × Option α :=
  if count ≤ sp.2 then (sp, none)
  else
    match next sp.1 with
    | (s2, none) => ((s2, sp.2), none)
    | (s2, some v) => ((s2, sp.2 + 1), some v)

/-- `SkipLazyIterator.next` (lines 156-166): while `_skipped < _count`, pull
upstream, returning upstream's done-result as-is if it exhausts, else
counting the discard; once the quota is met, delegate a single upstream
pull. -/
def skipNext {σ α : Type} (next : σ → σ × Option α) (measure : σ → Nat)
    (hm : ∀ s v, (next s).2 = some v → measure (next s).1 < measure s)
    (count : Nat) (sp : σ × Nat) : (σ × Nat) × Option α :=
  if sp.2 < count then
    match h : next sp.1 with
    | (s2, none) => ((s2, sp.2), none)
    | (s2, some v) => skipNext next measure hm count (s2, sp.2 + 1)
  else
    match next sp.1 with
    | (s2, r) => ((s2, sp.2), r)
termination_by measure sp.1
decreasing_by
  have h2 : (next sp.1).2 = some v := by rw [h]
  have h3 := hm sp.1 v h2
  rw [h] at h3
  exact h3

/-- `FilterLazyIterator.next` (lines 177-185): pull upstream until the
predicate accepts a value or upstream exhausts; the loop is unbounded in how
many upstream pulls one output may need. -/
def filterNext {σ α : Type} (next : σ → σ × Option α) (measure : σ → Nat)
    (hm : ∀ s v, (next s).2 = some v → measure (next s).1 < measure s)
    (p : α → Bool) (s : σ) : σ × Option α :=
  match h : next s with
  | (s2, none) => (s2, none)
  | (s2, some v) =>
    if p v then (s2, some v)
    else filterNext next measure hm p s2
termination_by measure s
decreasing_by
  have h2 : (next s).2 = some v := by rw [h]
  have h3 := hm s v h2
  rw [h] at h3
  exact h3

/-- `MapLazyIterator.next` (lines 196-204): one upstream pull; exhaustion
propagates untransformed, a value is transformed. -/
def mapNext {σ α β : Type} (next : σ → σ × Option α) (f : α → β) (s : σ) :
    σ × Option β :=
  match next s with
  | (s2, none) => (s2, none)
  | (s2, some v) => (s2, some (f v))

/-- The object root stage (`ObjectLazyIterator`): state is `_currentIndex`
into the (possibly reversed) fresh key list. -/
def objectIter (entries : List (String × γ)) (reverse : Bool) :
    PIter (String × γ) where
  σ := Nat
  next := objectNextGo entries (objectKeys entries reverse)
  measure := fun idx => (objectKeys entries reverse).length - idx
  hmeas := by
    intro s v h
    have key : ∀ (n idx s2 : Nat) (v2 : String × γ),
        (objectKeys entries reverse).length - idx = n →
        objectNextGo entries (objectKeys entries reverse) idx =
          (s2, some v2) →
        idx < s2 ∧ s2 ≤ (objectKeys entries reverse).length := by
      intro n
      induction n using Nat.strong_induction_on with
      | _ n ih =>
        intro idx s2 v2 hn heq
        unfold objectNextGo at heq
        split at heq
        · rename_i hlt
          split at heq
          · obtain ⟨he1, _⟩ := Prod.mk.inj heq
            omega
          · have := ih ((objectKeys entries reverse).length - (idx + 1))
              (by omega) (idx + 1) s2 v2 rfl heq
            omega
        · exact absurd (Prod.mk.inj heq).2 (by simp)
    have hpair : objectNextGo entries (objectKeys entries reverse) s =
        ((objectNextGo entries (objectKeys entries reverse) s).1, some v) :=
      Prod.ext rfl h
    obtain ⟨h1, h2⟩ := key ((objectKeys entries reverse).length - s) s
      (objectNextGo entries (objectKeys entries reverse) s).1 v rfl hpair
    simp only
    omega

/-- The `filter` stage. -/
def filterIter (it : PIter α) (p : α → Bool) : PIter α where
  σ := it.σ
  next := filterNext it.next it.measure it.hmeas p
  measure := it.measure
  hmeas := by
    intro s v h
    have key : ∀ (n : Nat) (s : it.σ) (s2 : it.σ) (v2 : α),
        it.measure s = n →
        filterNext it.next it.measure it.hmeas p s = (s2, some v2) →
        it.measure s2 < it.measure s := by
      intro n
      induction n using Nat.strong_induction_on with
      | _ n ih =>
        intro s s2 v2 hn heq
        unfold filterNext at heq
        split at heq
        · exact absurd (Prod.mk.inj heq).2 (by simp)
        · rename_i s3 v3 hs3
          by_cases hp : p v3
          · rw [if_pos hp] at heq
            obtain ⟨he1, _⟩ := Prod.mk.inj heq
            subst he1
            have := it.hmeas s v3 (by rw [hs3])
            rw [hs3] at this
            simpa using this
          · rw [if_neg hp] at heq
            have hlt : it.measure s3 < it.measure s := by
              have := it.hmeas s v3 (by rw [hs3])
              rw [hs3] at this
              simpa using this
            have := ih (it.measure s3) (by omega) s3 s2 v2 rfl heq
            omega
    exact key (it.measure s) s _ v rfl (Prod.ext rfl h)

/-- The `map` stage. -/
def mapIter (it : PIter α) (f : α → β) : PIter β where
  σ := it.σ
  next := mapNext it.next f
  measure := it.measure
  hmeas := by
    intro s v h
    have key : ∀ s2 v2, mapNext it.next f s = (s2, some v2) →
        it.measure s2 < it.measure s := by
      intro s2 v2 heq
      unfold mapNext at heq
      split at heq
      · exact absurd (Prod.mk.inj heq).2 (by simp)
      · rename_i s3 v3 hs3
        obtain ⟨he1, _⟩ := Prod.mk.inj heq
        subst he1
        have := it.hmeas s v3 (by rw [hs3])
        rw [hs3] at this
        simpa using this
    exact key _ v (Prod.ext rfl h)

/-- The `take` stage: state pairs the upstream state with `_taken`. -/
def takeIter (it : PIter α) (count : Nat) : PIter α where
  σ := it.σ × Nat
  next := takeNext it.next count
  measure := fun sp => it.measure sp.1
  hmeas := by
    intro sp v h
    have key : ∀ sp2 v2, takeNext it.next count sp = (sp2, some v2) →
        it.measure sp2.1 < it.measure sp.1 := by
      intro sp2 v2 heq
      unfold takeNext at heq
      split at heq
      · exact absurd (Prod.mk.inj heq).2 (by simp)
      · split at heq
        · exact absurd (Prod.mk.inj heq).2 (by simp)
        · rename_i s3 v3 hs3
          obtain ⟨he1, _⟩ := Prod.mk.inj heq
          subst he1
          have := it.hmeas sp.1 v3 (by rw [hs3])
          rw [hs3] at this
          simpa using this
    exact key _ v (Prod.ext rfl h)

/-- The `skip` stage: state pairs the upstream state with `_skipped`. -/
def skipIter (it : PIter α) (count : Nat) : PIter α where
  σ := it.σ × Nat
  next := skipNext it.next it.measure it.hmeas count
  measure := fun sp => it.measure sp.1
  hmeas := by
    intro sp v h
    have key : ∀ (n : Nat) (sp sp2 : it.σ × Nat) (v2 : α),
        it.measure sp.1 = n →
        skipNext it.next it.measure it.hmeas count sp = (sp2, some v2) →
        it.measure sp2.1 < it.measure sp.1 := by
      intro n
      induction n using Nat.strong_induction_on with
      | _ n ih =>
        intro sp sp2 v2 hn heq
        unfold skipNext at heq
        split at heq
        · split at heq
          · exact absurd (Prod.mk.inj heq).2 (by simp)
          · rename_i s3 v3 hs3
            have hlt : it.measure s3 < it.measure sp.1 := by
              have := it.hmeas sp.1 v3 (by rw [hs3])
              rw [hs3] at this
              simpa using this
            have := ih (it.measure s3) (by omega) (s3, sp.2 + 1) sp2 v2 rfl heq
            simp only at this
            omega
        · split at heq
          rename_i s3 r3 hs3
          obtain ⟨he1, he2⟩ := Prod.mk.inj heq
          subst he1
          subst he2
          have := it.hmeas sp.1 v2 (by rw [hs3])
          rw [hs3] at this
          simpa using this
    exact key (it.measure sp.1) sp _ v rfl (Prod.ext rfl h)

/-- A stage never revives: pulling from the state a done-report leaves
behind reports done again. -/
def NeverRevives {σ α : Type} (next : σ → σ × Option α) : Prop :=
  ∀ s, (next s).2 = none → (next (next s).1).2 = none

/-- `m + 1` successive pulls from `s`, returning the last result. -/
def pullN {σ α : Type} (next : σ → σ × Option α) : Nat → σ → σ × Option α
  | 0, s => next s
  | m + 1, s => pullN next m (next s).1

/-- `toArray` (lines 22-30): pull until done, collecting values. -/
def toArrayFrom (it : PIter α) (s : it.σ) : List α :=
  match h : it.next s with
  | (_, none) => []
  | (s2, some v) => v :: toArrayFrom it s2
termination_by it.measure s
decreasing_by
  have h2 : (it.next s).2 = some v := by rw [h]
  have h3 := it.hmeas s v h2
  rw [h] at h3
  exact h3

/-- A mutable store of JS arrays; a reference is an index into the store.
Only the operations the engines perform on arrays appear: `slice()`
(allocate a fresh shallow copy) and in-place `reverse()`. -/
structure Store (α : Type) : Type where
  arrays : List (List α)

/-- Dereference (reading an unallocated reference gives `[]`; the engines
only ever read references they were given or created). -/
def readRef (st : Store α) (r : Nat) : List α := st.arrays.getD r []

/-- Allocate a fresh array. -/
def allocRef (st : Store α) (content : List α) : Store α × Nat :=
  ({ arrays := st.arrays ++ [content] }, st.arrays.length)

/-- `array.slice()`: a fresh shallow copy. -/
def sliceRef (st : Store α) (r : Nat) : Store α × Nat :=
  allocRef st (readRef st r)

/-- `array.reverse()`: reverse IN PLACE. -/
def reverseRefInPlace (st : Store α) (r : Nat) : Store α :=
  { arrays := st.arrays.set r (readRef st r).reverse }

/-- The working-view construction shared verbatim by `forEachArray`,
`forEachArrayAsync`, `forEachArrayChunked`, `forEachArrayChunkedAsync`,
`forEachArrayParallel` and the array branch of `forEachGenerator`:
`const items = reverse ? array.slice().reverse() : array;` — under
`reverse`, slice a fresh copy and reverse THE COPY in place; otherwise the
view aliases the caller's array, which the engine body only reads. -/
def buildWorkingView (st : Store α) (r : Nat) (reverse : Bool) :
    Store α × Nat :=
  if reverse then
    let res := sliceRef st r
    (reverseRefInPlace res.1 res.2, res.2)
  else (st, r)

/-- The map-shaped analogue, shared by the object engines:
`const keys = Object.keys(object); const items = reverse ? keys.reverse() :
keys;` — `Object.keys` allocates a FRESH array of the object's own
enumerable keys, so the in-place reversal touches only that fresh array.
The object itself is a pure value outside the store: no engine ever assigns
into the caller's object. -/
def buildKeysView (st : Store String) (object : List (String × Option α))
    (reverse : Bool) : Store String × Nat :=
  let res := allocRef st (object.map Prod.fst)
  if reverse then (reverseRefInPlace res.1 res.2, res.2) else res

/-- The guard every eager object engine runs before invoking the callback
for a key: own property (`hasOwnProperty`), value not `undefined`
(`if (value === undefined) continue/return`).  The throw sites differ per
engine but this admission guard is textually identical in
`forEachObjectChunked` (lines 106-111), `forEachObjectChunkedAsync` (both
branches, lines 273-277 and 294-299) and `forEachObjectParallel` (both
modes, lines 644-652 and 697-701). -/
def definedOwnKey (object : List (String × Option α)) (k : String) : Bool :=
  match object.lookup k with
  | some (some _) => true
  | _ => false

/-- Keys whose callbacks one full run of `forEachObjectChunked` invokes, in
invocation order (windows in order, guard before each invocation).  An
error-aborted run under `breakOnError` invokes a prefix of these — guards
always precede invocation, so a key outside this list is never invoked. -/
def objChunkedInvokedKeys (object : List (String × Option α))
    (chunkSize : Nat) (reverse : Bool) : List String :=
  let keys := object.map Prod.fst
  let items := if reverse then keys.reverse else keys
  ((createChunks chunkSize items).map
    (fun w => w.filter (definedOwnKey object))).flatten

/-- Keys whose callbacks one full run of `forEachObjectChunkedAsync`
invokes: the `concurrency > 1` branch sub-slices each window into batches
(guard inside each element closure), the `concurrency ≤ 1` branch is the
sequential window loop; both guard before invoking. -/
def objChunkedAsyncInvokedKeys (object : List (String × Option α))
    (chunkSize concurrency : Nat) (reverse : Bool) : List String :=
  let keys := object.map Prod.fst
  let items := if reverse then keys.reverse else keys
  if 1 < concurrency then
    ((createChunks chunkSize items).map (fun w =>
      ((createChunks concurrency w).map
        (fun b => b.filter (definedOwnKey object))).flatten)).flatten
  else
    ((createChunks chunkSize items).map
      (fun w => w.filter (definedOwnKey object))).flatten

/-- Keys whose callbacks `forEachObjectParallel` launches in grouped mode
(chunks of `concurrency` keys; the guard runs at the start of each element
closure, before the callback). -/
def objParallelGroupedInvokedKeys (object : List (String × Option α))
    (concurrency : Nat) (reverse : Bool) : List String :=
  let keys := object.map Prod.fst
  let items := if reverse then keys.reverse else keys
  ((createChunks concurrency items).map
    (fun c => c.filter (definedOwnKey object))).flatten

/-- Keys whose callbacks `forEachObjectParallel` launches in admission-queue
mode (`preserveOrder`): non-own keys are skipped before queueing on the
semaphore, `undefined`-valued keys release their slot and return before the
callback. -/
def objParallelOrderedInvokedKeys (object : List (String × Option α))
    (reverse : Bool) : List String :=
  let keys := object.map Prod.fst
  let items := if reverse then keys.reverse else keys
  items.filter (definedOwnKey object)

/-- The object branch of `forEachGenerator` (src/core/foreach-lazy.ts,
lines 237-259): enumerate the (possibly reversed) own keys and yield
`[key, value]` for each own key — with NO undefined-value skip, so a key
whose value is `undefined` is yielded as `[key, undefined]`. -/
def forEachGeneratorObj (object : List (String × Option α)) (reverse : Bool) :
    List (String × Option α) :=
  let keys := object.map Prod.fst
  let items := if reverse then keys.reverse else keys
  items.filterMap (fun k => (object.lookup k).map (fun v => (k, v)))

/-! ## Theorems -/

/-- Concatenating the chunks gives back the original list. -/
theorem createChunksGo_flatten (size : Nat) :
    ∀ (fuel : Nat) (l : List β), l.length ≤ fuel →
      (createChunksGo size fuel l).flatten = l := by
  intro fuel
  induction fuel with
  | zero =>
    intro l hl
    match l with
    | [] => rfl
    | _ :: _ => simp at hl
  | succ fuel ih =>
    intro l hl
    match l with
    | [] => rfl
    | x :: xs =>
      have hx : (xs.drop (size - 1)).length ≤ fuel := by
        simp only [List.length_drop]
        simp only [List.length_cons] at hl
        omega
      simp only [createChunksGo, List.flatten_cons, ih _ hx, List.cons_append]
      simp [List.take_append_drop]

/-- Concatenating the chunks gives back the original list. -/
theorem createChunks_flatten (size : Nat) (l : List β) :
    (createChunks size l).flatten = l :=
  createChunksGo_flatten size l.length l le_rfl

/-- Every element of every chunk comes from the original list. -/
theorem mem_of_mem_createChunks {size : Nat} {l : List β} {c : List β}
    (hc : c ∈ createChunks size l) {p : β} (hp : p ∈ c) : p ∈ l := by
  have : p ∈ (createChunks size l).flatten := List.mem_flatten.2 ⟨c, hc, hp⟩
  rwa [createChunks_flatten] at this

/-- Membership in `List.enumFrom` determines the element at that position. -/
theorem enumFrom_mem_getElem {α : Type} :
    ∀ (l : List α) (n i : Nat) (x : α), (i, x) ∈ l.enumFrom n →
      n ≤ i ∧ l[i - n]? = some x := by
  intro l
  induction l with
  | nil => intro n i x h; simp at h
  | cons y ys ih =>
    intro n i x h
    simp only [List.enumFrom, List.mem_cons] at h
    rcases h with h | h
    · obtain ⟨rfl, rfl⟩ := Prod.mk.inj h
      simp
    · obtain ⟨hle, hget⟩ := ih (n + 1) i x h
      refine ⟨by omega, ?_⟩
      have hi : i - n = (i - (n + 1)) + 1 := by omega
      rw [hi]
      simpa using hget

/-- Membership in `List.enum` determines the element at that position. -/
theorem enum_mem_getElem {α : Type} (l : List α) (i : Nat) (x : α)
    (h : (i, x) ∈ l.enum) : l[i]? = some x := by
  have := enumFrom_mem_getElem l 0 i x h
  simpa using this.2

/-- A present position yields a member of `List.enumFrom`. -/
theorem getElem_mem_enumFrom {α : Type} :
    ∀ (l : List α) (n k : Nat) (x : α), l[k]? = some x →
      (n + k, x) ∈ l.enumFrom n := by
  intro l
  induction l with
  | nil => intro n k x h; simp at h
  | cons y ys ih =>
    intro n k x h
    match k with
    | 0 =>
      simp only [List.getElem?_cons_zero, Option.some.injEq] at h
      subst h
      simp [List.enumFrom]
    | k + 1 =>
      simp only [List.getElem?_cons_succ] at h
      have := ih (n + 1) k x h
      simp only [List.enumFrom, List.mem_cons]
      right
      have harith : n + (k + 1) = (n + 1) + k := by omega
      rw [harith]
      exact this

/-- A present position yields a member of `List.enum`. -/
theorem getElem_mem_enum {α : Type} (l : List α) (k : Nat) (x : α)
    (h : l[k]? = some x) : (k, x) ∈ l.enum :=
  by simpa using getElem_mem_enumFrom l 0 k x h


/-- If some present element at or after the cursor exceeds the deadline, the
async sequential loop (with `breakOnError`/`breakOnReturn` off and forward
order) surfaces a `TimeoutError`: earlier elements either settle (their
returns are ignored), throw (swallowed under `breakOnError = false`), or
themselves time out — which also surfaces a `TimeoutError`. -/
theorem forEachArrayAsyncGo_timeout {α ε ρ : Type}
    (acb : α → Nat → Nat × CbRes ε ρ) (opts : AsyncOptions) (t len : Nat)
    (ht : 0 < t) (htm : opts.timeout = some t)
    (hbe : opts.breakOnError = false) (hbr : opts.breakOnReturn = false)
    (hrev : opts.reverse = false) :
    ∀ (items : List (Option α)) (i : Nat),
      (∃ k v, items[k]? = some (some v) ∧ t < (acb v (i + k)).1) →
      ∃ j, (forEachArrayAsyncGo acb opts len items i).2 =
        .error (.timeoutAtIndex j) := by
  intro items
  induction items with
  | nil =>
    intro i h
    obtain ⟨k, v, hk, _⟩ := h
    simp at hk
  | cons x rest ih =>
    intro i h
    obtain ⟨k, v, hk, hd⟩ := h
    match x with
    | none =>
      match k with
      | 0 => simp at hk
      | k + 1 =>
        simp only [List.getElem?_cons_succ] at hk
        have hd2 : t < (acb v (i + 1 + k)).1 := by
          have harith : i + 1 + k = i + (k + 1) := by omega
          rw [harith]; exact hd
        simpa only [forEachArrayAsyncGo] using ih (i + 1) ⟨k, v, hk, hd2⟩
    | some u =>
      have hact : (if opts.reverse then len - 1 - i else i) = i := by
        rw [hrev]; simp
      by_cases htu : timedOut opts.timeout (acb u i).1
      · exact ⟨i, by simp only [forEachArrayAsyncGo, hact, htu, if_pos]⟩
      · have hk1 : ∃ k2, k = k2 + 1 := by
          match k with
          | 0 =>
            simp only [List.getElem?_cons_zero, Option.some.injEq,
              Option.some.injEq] at hk
            exfalso
            apply htu
            rw [htm]
            subst hk
            simp only [timedOut, Bool.and_eq_true, decide_eq_true_eq]
            simpa using ⟨ht, hd⟩
          | k2 + 1 => exact ⟨k2, rfl⟩
        obtain ⟨k2, rfl⟩ := hk1
        simp only [List.getElem?_cons_succ] at hk
        have hd2 : t < (acb v (i + 1 + k2)).1 := by
          have harith : i + 1 + k2 = i + (k2 + 1) := by omega
          rw [harith]; exact hd
        obtain ⟨j, hj⟩ := ih (i + 1) ⟨k2, v, hk, hd2⟩
        refine ⟨j, ?_⟩
        simp only [forEachArrayAsyncGo, hact, htu, if_neg, Bool.false_eq_true,
          not_false_eq_true]
        cases hres : (acb u i).2 with
        | ret r =>
          rw [hbr]
          simpa using hj
        | exn e =>
          rw [hbe]
          simpa using hj

/-- Under `breakOnError = false` an element promise can only reject with the
`TimeoutError` for its own actual index. -/
theorem parallelElemOutcome_shape {α ε ρ : Type}
    {acb : α → Nat → Nat × CbRes ε ρ} {timeout : Option Nat} {v : α}
    {ai : Nat} {err : EngineError ε}
    (h : parallelElemOutcome timeout false acb v ai = some err) :
    err = .timeoutAtIndex ai := by
  unfold parallelElemOutcome at h
  by_cases htd : timedOut timeout (acb v ai).1
  · rw [if_pos htd] at h
    exact (Option.some.injEq .. ▸ h).symm
  · rw [if_neg htd] at h
    cases hres : (acb v ai).2 with
    | ret r => rw [hres] at h; simp at h
    | exn e => rw [hres] at h; simp at h

/-- Every rejection of a launch group under `breakOnError = false` is a
timeout. -/
theorem chunkRejections_shape {α ε ρ : Type} {timeout : Option Nat}
    {reverse : Bool} {len : Nat} {acb : α → Nat → Nat × CbRes ε ρ}
    {c : List (Option (α × Nat))} {err : EngineError ε}
    (h : err ∈ chunkRejections timeout false reverse len acb c) :
    ∃ j, err = EngineError.timeoutAtIndex j := by
  unfold chunkRejections at h
  obtain ⟨o, _, hsome⟩ := List.mem_filterMap.1 h
  cases o with
  | none => simp at hsome
  | some p =>
    simp only [Option.some_bind] at hsome
    exact ⟨_, parallelElemOutcome_shape hsome⟩

/-- A launch group containing a present element that exceeds the deadline
rejects. -/
theorem chunkRejections_ne_nil {α ε ρ : Type} {timeout : Option Nat}
    {bOE reverse : Bool} {len : Nat} {acb : α → Nat → Nat × CbRes ε ρ}
    {c : List (Option (α × Nat))} {v : α} {pos : Nat}
    (hp : some (v, pos) ∈ c)
    (htd : timedOut timeout (acb v (if reverse then len - 1 - pos else pos)).1
      = true) :
    chunkRejections timeout bOE reverse len acb c ≠ [] := by
  intro hnil
  have hout : parallelElemOutcome timeout bOE acb v
      (if reverse then len - 1 - pos else pos) =
      some (.timeoutAtIndex (if reverse then len - 1 - pos else pos)) := by
    unfold parallelElemOutcome
    rw [if_pos htd]
  have hmem : (EngineError.timeoutAtIndex
      (if reverse then len - 1 - pos else pos) : EngineError ε) ∈
      chunkRejections timeout bOE reverse len acb c :=
    List.mem_filterMap.2 ⟨some (v, pos), hp, by simp [hout]⟩
  rw [hnil] at hmem
  simp at hmem

/-- If every possible rejection of every launch group satisfies `P` and some
group rejects, the grouped fan-out loop surfaces an error satisfying `P`. -/
theorem parallelGroupedRun_error {α ε ρ : Type} (P : EngineError ε → Prop)
    (timeout : Option Nat) (bOE reverse : Bool) (len : Nat)
    (acb : α → Nat → Nat × CbRes ε ρ) :
    ∀ chunks : List (List (Option (α × Nat))),
      (∀ c ∈ chunks, ∀ err ∈ chunkRejections timeout bOE reverse len acb c,
        P err) →
      (∃ c ∈ chunks, chunkRejections timeout bOE reverse len acb c ≠ []) →
      ∃ err, parallelGroupedRun timeout bOE reverse len acb chunks =
        .error err ∧ P err := by
  intro chunks
  induction chunks with
  | nil =>
    intro _ hex
    obtain ⟨c, hc, _⟩ := hex
    simp at hc
  | cons c0 cs ih =>
    intro hshape hex
    cases hh : (chunkRejections timeout bOE reverse len acb c0).head? with
    | some err =>
      refine ⟨err, ?_, ?_⟩
      · simp only [parallelGroupedRun, hh]
      · exact hshape c0 (by simp) err (List.mem_of_mem_head? hh)
    | none =>
      have hnil : chunkRejections timeout bOE reverse len acb c0 = [] := by
        cases hcr : chunkRejections timeout bOE reverse len acb c0 with
        | nil => rfl
        | cons a as => rw [hcr] at hh; simp at hh
      obtain ⟨c, hc, hcne⟩ := hex
      rcases List.mem_cons.1 hc with rfl | hc2
      · exact absurd hnil hcne
      · have hres := ih (fun c hcmem => hshape c (List.mem_cons_of_mem _ hcmem))
          ⟨c, hc2, hcne⟩
        simpa only [parallelGroupedRun, hh] using hres

/-- Every rejection of the admission-queue mode under `breakOnError = false`
is a timeout. -/
theorem orderedRejections_shape {α ε ρ : Type} {timeout : Option Nat}
    {reverse : Bool} {len : Nat} {acb : α → Nat → Nat × CbRes ε ρ}
    {items : List (Option α)} {err : EngineError ε}
    (h : err ∈ orderedRejections timeout false reverse len acb items) :
    ∃ j, err = EngineError.timeoutAtIndex j := by
  unfold orderedRejections at h
  obtain ⟨p, _, hsome⟩ := List.mem_filterMap.1 h
  cases hsnd : p.2 with
  | none => rw [hsnd] at hsome; simp at hsome
  | some v =>
    rw [hsnd] at hsome
    simp only [Option.some_bind] at hsome
    exact ⟨_, parallelElemOutcome_shape hsome⟩

/-- C3: with a positive per-element `timeout` and some present element whose
callback exceeds the deadline, `forEachAsync` and `forEachParallel` (in both
completion-ordering modes, any concurrency) reject with the distinguished
`TimeoutError`, even though `breakOnError` is false (its default). -/
theorem timeout_always_fatal {α ε ρ : Type} (arr : List (Option α))
    (acb : α → Nat → Nat × CbRes ε ρ) (t conc : Nat) (ht : 0 < t)
    (hslow : ∃ k v, arr[k]? = some (some v) ∧ t < (acb v k).1) :
    (∃ j, (forEachArrayAsync arr acb { timeout := some t }).2 =
      .error (.timeoutAtIndex j)) ∧
    (∃ j, forEachArrayParallel arr acb
      { timeout := some t, concurrency := conc } =
      .error (.timeoutAtIndex j)) ∧
    (∃ j, forEachArrayParallel arr acb
      { timeout := some t, concurrency := conc, preserveOrder := true } =
      .error (.timeoutAtIndex j)) := by
  obtain ⟨k, v, hk, hd⟩ := hslow
  have htd : timedOut (some t) (acb v k).1 = true := by
    simp only [timedOut, Bool.and_eq_true, decide_eq_true_eq]
    exact ⟨ht, hd⟩
  have henum : (k, some v) ∈ arr.enum := getElem_mem_enum arr k (some v) hk
  have hidx : some (v, k) ∈ indexedItems arr := by
    unfold indexedItems
    exact List.mem_map.2 ⟨(k, some v), henum, rfl⟩
  refine ⟨?_, ?_, ?_⟩
  · have hun : (forEachArrayAsync arr acb { timeout := some t }).2 =
        (forEachArrayAsyncGo acb { timeout := some t } arr.length arr 0).2 := rfl
    rw [hun]
    exact forEachArrayAsyncGo_timeout acb _ t arr.length ht rfl rfl rfl rfl
      arr 0 ⟨k, v, hk, by simpa using hd⟩
  · have hun : forEachArrayParallel arr acb
        { timeout := some t, concurrency := conc } =
        parallelGroupedRun (some t) false false arr.length acb
          (createChunks conc (indexedItems arr)) := rfl
    rw [hun]
    have hmemfl : some (v, k) ∈ (createChunks conc (indexedItems arr)).flatten := by
      rw [createChunks_flatten]; exact hidx
    obtain ⟨c, hc, hvc⟩ := List.mem_flatten.1 hmemfl
    have hne : chunkRejections (some t) false false arr.length acb c ≠ [] :=
      chunkRejections_ne_nil hvc (by simpa using htd)
    obtain ⟨err, herr, j, hjs⟩ :=
      parallelGroupedRun_error (fun err => ∃ j, err = .timeoutAtIndex j)
        (some t) false false arr.length acb
        (createChunks conc (indexedItems arr))
        (fun c hcmem err herrmem => chunkRejections_shape herrmem)
        ⟨c, hc, hne⟩
    exact ⟨j, by rw [← hjs]; exact herr⟩
  · have hun : forEachArrayParallel arr acb
        { timeout := some t, concurrency := conc, preserveOrder := true } =
        (match (orderedRejections (some t) false false arr.length acb
            arr).head? with
          | some err => Except.error err
          | none => Except.ok ()) := rfl
    rw [hun]
    have hout : parallelElemOutcome (some t) false acb v k =
        some (.timeoutAtIndex k) := by
      unfold parallelElemOutcome
      rw [if_pos htd]
    have hmem : (EngineError.timeoutAtIndex k : EngineError ε) ∈
        orderedRejections (some t) false false arr.length acb arr :=
      List.mem_filterMap.2 ⟨(k, some v), henum, by simp [hout]⟩
    cases hh : (orderedRejections (some t) false false arr.length acb
        arr).head? with
    | none =>
      exfalso
      have : orderedRejections (some t) false false arr.length acb arr = [] := by
        cases hcr : orderedRejections (some t) false false arr.length acb arr with
        | nil => rfl
        | cons a as => rw [hcr] at hh; simp at hh
      rw [this] at hmem
      simp at hmem
    | some err =>
      obtain ⟨j, hjs⟩ := orderedRejections_shape (List.mem_of_mem_head? hh)
      exact ⟨j, by rw [← hjs]⟩

/-- Witness for `timeout_always_fatal`: a one-element array whose callback
takes 2 ms against a 1 ms deadline. -/
theorem timeout_always_fatal_witness :
    (∃ j, (forEachArrayAsync [some 0]
      (fun _ _ => ((2, CbRes.ret none) : Nat × CbRes String Unit))
      { timeout := some 1 }).2 = .error (.timeoutAtIndex j)) ∧
    (∃ j, forEachArrayParallel [some 0]
      (fun _ _ => ((2, CbRes.ret none) : Nat × CbRes String Unit))
      { timeout := some 1, concurrency := 2 } = .error (.timeoutAtIndex j)) ∧
    (∃ j, forEachArrayParallel [some 0]
      (fun _ _ => ((2, CbRes.ret none) : Nat × CbRes String Unit))
      { timeout := some 1, concurrency := 2, preserveOrder := true } =
      .error (.timeoutAtIndex j)) :=
  timeout_always_fatal [some 0] _ 1 2 (by decide)
    ⟨0, 0, rfl, by decide⟩

/-- In the sync array loop with `breakOnError`, if every element other than
position `j` returns `undefined` and position `j` throws `e`, reaching `j`
yields the wrapped `ForEachError` carrying index `j` and `e`. -/
theorem forEachArrayGo_firstError {α ε ρ : Type}
    (cb : Option α → Nat → CbRes ε ρ) (opts : ForEachOptions) (len j : Nat)
    (e : ε) (hbe : opts.breakOnError = true) (hbr : opts.breakOnReturn = false)
    (hrev : opts.reverse = false)
    (hok : ∀ v i, i ≠ j → cb v i = .ret none) (hj : ∀ v, cb v j = .exn e) :
    ∀ (items : List (Option α)) (i : Nat), i ≤ j → j - i < items.length →
      (forEachArrayGo cb opts len items i).2 = .error (.iterAtIndex j e) := by
  intro items
  induction items with
  | nil =>
    intro i _ hlt
    simp at hlt
  | cons x rest ih =>
    intro i hij hlt
    have hact : (if opts.reverse then len - 1 - i else i) = i := by
      rw [hrev]; simp
    by_cases hi : i = j
    · subst hi
      simp [forEachArrayGo, hact, hj x, hbe]
    · have hij2 : i + 1 ≤ j := by omega
      have hlt2 : j - (i + 1) < rest.length := by
        simp only [List.length_cons] at hlt
        omega
      have hrec := ih (i + 1) hij2 hlt2
      simp [forEachArrayGo, hact, hok x i hi, hbr, hrec]

/-- Async-sequential counterpart of `forEachArrayGo_firstError` (no timeout
configured; holes are skipped, so position `j` must be present). -/
theorem forEachArrayAsyncGo_firstError {α ε ρ : Type}
    (acb : α → Nat → Nat × CbRes ε ρ) (opts : AsyncOptions) (len j : Nat)
    (e : ε) (hbe : opts.breakOnError = true) (hbr : opts.breakOnReturn = false)
    (hrev : opts.reverse = false) (htm : opts.timeout = none)
    (hok : ∀ v i, i ≠ j → (acb v i).2 = .ret none)
    (hj : ∀ v, (acb v j).2 = .exn e) :
    ∀ (items : List (Option α)) (i : Nat) (vj : α), i ≤ j →
      items[j - i]? = some (some vj) →
      (forEachArrayAsyncGo acb opts len items i).2 =
        .error (.iterAtIndex j e) := by
  intro items
  induction items with
  | nil =>
    intro i vj _ hget
    simp at hget
  | cons x rest ih =>
    intro i vj hij hget
    have hact : (if opts.reverse then len - 1 - i else i) = i := by
      rw [hrev]; simp
    have hnotd : ∀ d, timedOut opts.timeout d = false := by
      intro d; rw [htm]; rfl
    by_cases hi : i = j
    · subst hi
      rw [Nat.sub_self] at hget
      simp only [List.getElem?_cons_zero, Option.some.injEq] at hget
      subst hget
      simp [forEachArrayAsyncGo, hact, hnotd, hj vj, hbe]
    · have hlt : i < j := lt_of_le_of_ne hij hi
      have hsub : j - i = (j - (i + 1)) + 1 := by omega
      rw [hsub, List.getElem?_cons_succ] at hget
      have hrec := ih (i + 1) vj (by omega) hget
      match x with
      | none => simpa only [forEachArrayAsyncGo] using hrec
      | some u =>
        simp [forEachArrayAsyncGo, hact, hnotd, hok u i hi, hbr, hrec]

/-- A chunked-engine window none of whose positions is the faulty one
completes without an escaping error. -/
theorem chunkedWindowGo_allOk {α ε ρ : Type} (cb : α → Nat → CbRes ε ρ)
    (bOE rev : Bool) (len j : Nat) (hrev : rev = false)
    (hok : ∀ v i, i ≠ j → cb v i = .ret none) :
    ∀ w : List (Nat × Option α), (∀ p ∈ w, p.1 ≠ j) →
      (chunkedWindowGo cb bOE rev len w).2.2 = none := by
  intro w
  induction w with
  | nil => intro _; rfl
  | cons p rest ih =>
    intro hw
    match p with
    | (i, none) =>
      simpa only [chunkedWindowGo] using ih (fun q hq => hw q (by simp [hq]))
    | (i, some v) =>
      have hact : (if rev then len - 1 - i else i) = i := by rw [hrev]; simp
      have hne : i ≠ j := hw (i, some v) (by simp)
      have hrec := ih (fun q hq => hw q (by simp [hq]))
      simp [chunkedWindowGo, hact, hok v i hne, hrec]

/-- A chunked-engine window containing the faulty position `j` (present, with
value `vj`) escapes with the ORIGINAL error under `breakOnError`. -/
theorem chunkedWindowGo_hitError {α ε ρ : Type} (cb : α → Nat → CbRes ε ρ)
    (bOE rev : Bool) (len j : Nat) (vj : α) (e : ε) (hbe : bOE = true)
    (hrev : rev = false)
    (hok : ∀ v i, i ≠ j → cb v i = .ret none) (hj : ∀ v, cb v j = .exn e) :
    ∀ w : List (Nat × Option α), (j, some vj) ∈ w →
      (∀ p ∈ w, p.1 = j → p = (j, some vj)) →
      (chunkedWindowGo cb bOE rev len w).2.2 = some e := by
  intro w
  induction w with
  | nil => intro hmem _; simp at hmem
  | cons p rest ih =>
    intro hmem hwf
    match p with
    | (i, x) =>
      by_cases hi : i = j
      · subst hi
        have hpx : ((i : Nat), x) = (i, some vj) := hwf (i, x) (by simp) rfl
        have hx : x = some vj := by
          simpa using hpx
        subst hx
        have hact : (if rev then len - 1 - i else i) = i := by rw [hrev]; simp
        simp [chunkedWindowGo, hact, hj vj, hbe]
      · have hmem2 : (j, some vj) ∈ rest := by
          rcases List.mem_cons.1 hmem with heq | h2
          · exfalso; apply hi; simpa using congrArg Prod.fst heq.symm
          · exact h2
        have hwf2 : ∀ p ∈ rest, p.1 = j → p = (j, some vj) :=
          fun q hq => hwf q (by simp [hq])
        have hrec := ih hmem2 hwf2
        match x with
        | none => simpa only [chunkedWindowGo] using hrec
        | some u =>
          have hact : (if rev then len - 1 - i else i) = i := by rw [hrev]; simp
          simp [chunkedWindowGo, hact, hok u i hi, hrec]

/-- Window loop of the chunked engine: if one of the windows contains the
faulty present position `j`, the run aborts with the unwrapped original
error. -/
theorem chunkedRun_raw {α ε ρ : Type} (cb : α → Nat → CbRes ε ρ)
    (bOE rev : Bool) (len j : Nat) (vj : α) (e : ε) (hbe : bOE = true)
    (hrev : rev = false)
    (hok : ∀ v i, i ≠ j → cb v i = .ret none) (hj : ∀ v, cb v j = .exn e) :
    ∀ (ws : List (List (Nat × Option α))) (ci : Nat),
      (∀ w ∈ ws, ∀ p ∈ w, p.1 = j → p = (j, some vj)) →
      (∃ w ∈ ws, (j, some vj) ∈ w) →
      (chunkedRun cb bOE rev len ws ci).2.2 = .error (.raw e) := by
  intro ws
  induction ws with
  | nil =>
    intro ci _ hex
    obtain ⟨w, hw, _⟩ := hex
    simp at hw
  | cons w0 ws ih =>
    intro ci hwf hex
    by_cases hmem : (j, some vj) ∈ w0
    · have hW2 := chunkedWindowGo_hitError cb bOE rev len j vj e hbe hrev hok
        hj w0 hmem (hwf w0 (by simp))
      rcases hgo : chunkedWindowGo cb bOE rev len w0 with ⟨tr0, cnt0, eo0⟩
      rw [hgo] at hW2
      simp only at hW2
      subst hW2
      simp only [chunkedRun, hgo]
    · have hallne : ∀ p ∈ w0, p.1 ≠ j := by
        intro p hp hpj
        exact hmem (hwf w0 (by simp) p hp hpj ▸ hp)
      have hW1 := chunkedWindowGo_allOk cb bOE rev len j hrev hok w0 hallne
      rcases hgo : chunkedWindowGo cb bOE rev len w0 with ⟨tr0, cnt0, eo0⟩
      rw [hgo] at hW1
      simp only at hW1
      subst hW1
      have hex2 : ∃ w ∈ ws, (j, some vj) ∈ w := by
        obtain ⟨w, hw, hmw⟩ := hex
        rcases List.mem_cons.1 hw with rfl | h2
        · exact absurd hmw hmem
        · exact ⟨w, h2, hmw⟩
      have hrec := ih (ci + 1) (fun w hw => hwf w (by simp [hw])) hex2
      simp only [chunkedRun, hgo]
      simpa using hrec

/-- Membership in `indexedItems` recovers the element at that position. -/
theorem indexedItems_mem {α : Type} {items : List (Option α)} {p : α × Nat}
    (h : some p ∈ indexedItems items) : items[p.2]? = some (some p.1) := by
  unfold indexedItems at h
  obtain ⟨q, hq, hmap⟩ := List.mem_map.1 h
  cases hq2 : q.2 with
  | none => rw [hq2] at hmap; simp at hmap
  | some w =>
    rw [hq2] at hmap
    simp at hmap
    have h1 : w = p.1 := by simpa using congrArg Prod.fst hmap
    have h2 : q.1 = p.2 := by simpa using congrArg Prod.snd hmap
    have := enum_mem_getElem items q.1 q.2 hq
    rw [h2, hq2, h1] at this
    exact this

/-- With no timeout configured, an element whose callback returns never
rejects. -/
theorem parallelElemOutcome_ret {α ε ρ : Type}
    {acb : α → Nat → Nat × CbRes ε ρ} {bOE : Bool} {v : α} {ai : Nat}
    {r : Option ρ} (h : (acb v ai).2 = .ret r) :
    parallelElemOutcome none bOE acb v ai = none := by
  unfold parallelElemOutcome
  rw [h]
  rfl

/-- With no timeout configured and `breakOnError`, an element whose callback
throws rejects with the unwrapped original error. -/
theorem parallelElemOutcome_exn {α ε ρ : Type}
    {acb : α → Nat → Nat × CbRes ε ρ} {v : α} {ai : Nat} {e : ε}
    (h : (acb v ai).2 = .exn e) :
    parallelElemOutcome none true acb v ai = some (.raw e) := by
  unfold parallelElemOutcome
  rw [h]
  rfl

/-- C5 counterexample: `forEachChunked` over `[1,2]` (chunk size 2,
`breakOnError := true`) with a callback that throws `"e"` on element 2
propagates the ORIGINAL error unwrapped (`EngineError.raw`), not the
index-carrying `ForEachError` wrapper (`iterAtIndex 1 "e"`) the claim
requires of every engine. -/
theorem error_context_counterexample :
    (forEachArrayChunked [some 1, some 2]
      (fun v _ => if v = 2 then (CbRes.exn "e" : CbRes String Unit)
        else .ret none)
      { chunkSize := 2, breakOnError := true }).2.2 = .error (.raw "e") ∧
    (forEachArrayChunked [some 1, some 2]
      (fun v _ => if v = 2 then (CbRes.exn "e" : CbRes String Unit)
        else .ret none)
      { chunkSize := 2, breakOnError := true }).2.2 ≠
      .error (.iterAtIndex 1 "e") := by
  constructor
  · rfl
  · rw [show (forEachArrayChunked [some 1, some 2]
      (fun v _ => if v = 2 then (CbRes.exn "e" : CbRes String Unit)
        else .ret none)
      { chunkSize := 2, breakOnError := true }).2.2 =
      .error (.raw "e") from rfl]
    simp

/-- C5 (amended): with `breakOnError := true` and the callback failing
exactly at present position `j` with error `e`, the sequential engines wrap:
`forEach` and `forEachAsync` reject with a `ForEachError` whose context
carries the failing index `j` and the original error; but `forEachChunked`
and `forEachParallel` (grouped mode, any chunk size / concurrency) rethrow
the original error unwrapped, with no index context attached. -/
theorem error_context_corrected {α ε ρ : Type} (arr : List (Option α))
    (j : Nat) (vj : α) (e : ε) (cs conc : Nat)
    (cb : Option α → Nat → CbRes ε ρ) (scb : α → Nat → CbRes ε ρ)
    (acb : α → Nat → Nat × CbRes ε ρ)
    (hpresent : arr[j]? = some (some vj))
    (hcb : ∀ v i, i ≠ j → cb v i = .ret none) (hcbj : ∀ v, cb v j = .exn e)
    (hscb : ∀ v i, i ≠ j → scb v i = .ret none)
    (hscbj : ∀ v, scb v j = .exn e)
    (hacb : ∀ v i, i ≠ j → (acb v i).2 = .ret none)
    (hacbj : ∀ v, (acb v j).2 = .exn e) :
    (forEachArray arr cb { breakOnError := true }).2 =
      .error (.iterAtIndex j e) ∧
    (forEachArrayAsync arr acb { breakOnError := true }).2 =
      .error (.iterAtIndex j e) ∧
    (forEachArrayChunked arr scb { chunkSize := cs, breakOnError := true
      }).2.2 = .error (.raw e) ∧
    forEachArrayParallel arr acb { breakOnError := true, concurrency := conc }
      = .error (.raw e) := by
  have hjlen : j < arr.length := by
    have := List.getElem?_eq_some_iff.1 hpresent
    exact this.1
  refine ⟨?_, ?_, ?_, ?_⟩
  · have hun : (forEachArray arr cb { breakOnError := true }).2 =
        (forEachArrayGo cb { breakOnError := true } arr.length arr 0).2 := rfl
    rw [hun]
    exact forEachArrayGo_firstError cb _ arr.length j e rfl rfl rfl hcb hcbj
      arr 0 (Nat.zero_le j) (by simpa using hjlen)
  · have hun : (forEachArrayAsync arr acb { breakOnError := true }).2 =
        (forEachArrayAsyncGo acb { breakOnError := true } arr.length arr
          0).2 := rfl
    rw [hun]
    exact forEachArrayAsyncGo_firstError acb _ arr.length j e rfl rfl rfl rfl
      hacb hacbj arr 0 vj (Nat.zero_le j) (by simpa using hpresent)
  · have hun : (forEachArrayChunked arr scb
        { chunkSize := cs, breakOnError := true }).2.2 =
        (chunkedRun scb true false arr.length
          (createChunks cs arr.enum) 0).2.2 := rfl
    rw [hun]
    have hwf : ∀ w ∈ createChunks cs arr.enum, ∀ p ∈ w, p.1 = j →
        p = (j, some vj) := by
      intro w hw p hp hpj
      have hpenum : p ∈ arr.enum := mem_of_mem_createChunks hw hp
      have : arr[p.1]? = some p.2 := by
        have := enum_mem_getElem arr p.1 p.2 (by simpa using hpenum)
        exact this
      rw [hpj] at this
      rw [hpresent] at this
      have hsnd : p.2 = some vj := by simpa using this.symm
      calc p = (p.1, p.2) := rfl
        _ = (j, some vj) := by rw [hpj, hsnd]
    have hexists : ∃ w ∈ createChunks cs arr.enum, (j, some vj) ∈ w := by
      have hmemfl : (j, some vj) ∈ (createChunks cs arr.enum).flatten := by
        rw [createChunks_flatten]
        exact getElem_mem_enum arr j (some vj) hpresent
      exact List.mem_flatten.1 hmemfl
    exact chunkedRun_raw scb true false arr.length j vj e rfl rfl hscb hscbj
      (createChunks cs arr.enum) 0 hwf hexists
  · have hun : forEachArrayParallel arr acb
        { breakOnError := true, concurrency := conc } =
        parallelGroupedRun none true false arr.length acb
          (createChunks conc (indexedItems arr)) := rfl
    rw [hun]
    have hactid : ∀ pos : Nat, (if false then arr.length - 1 - pos else pos)
        = pos := fun _ => rfl
    have hshape : ∀ c ∈ createChunks conc (indexedItems arr),
        ∀ err ∈ chunkRejections none true false arr.length acb c,
        err = EngineError.raw e := by
      intro c hc err herr
      unfold chunkRejections at herr
      obtain ⟨o, ho, hsome⟩ := List.mem_filterMap.1 herr
      cases o with
      | none => simp at hsome
      | some p =>
        simp only [Option.some_bind] at hsome
        have hmemidx : some p ∈ indexedItems arr := mem_of_mem_createChunks hc ho
        have hpget := indexedItems_mem hmemidx
        by_cases hpj : p.2 = j
        · have hvj : p.1 = vj := by
            rw [hpj, hpresent] at hpget
            simpa using hpget.symm
          rw [hactid p.2, hpj] at hsome
          rw [parallelElemOutcome_exn (hacbj p.1)] at hsome
          simpa using hsome.symm
        · rw [hactid p.2] at hsome
          rw [parallelElemOutcome_ret (hacb p.1 p.2 hpj)] at hsome
          simp at hsome
    have hexists : ∃ c ∈ createChunks conc (indexedItems arr),
        chunkRejections none true false arr.length acb c ≠ [] := by
      have hidx : some (vj, j) ∈ indexedItems arr := by
        unfold indexedItems
        exact List.mem_map.2 ⟨(j, some vj),
          getElem_mem_enum arr j (some vj) hpresent, rfl⟩
      have hmemfl : some (vj, j) ∈
          (createChunks conc (indexedItems arr)).flatten := by
        rw [createChunks_flatten]; exact hidx
      obtain ⟨c, hc, hvc⟩ := List.mem_flatten.1 hmemfl
      refine ⟨c, hc, ?_⟩
      intro hnil
      have hout : parallelElemOutcome none true acb vj j = some (.raw e) :=
        parallelElemOutcome_exn (hacbj vj)
      have hmem2 : (EngineError.raw e : EngineError ε) ∈
          chunkRejections none true false arr.length acb c :=
        List.mem_filterMap.2 ⟨some (vj, j), hvc, by simp [hout]⟩
      rw [hnil] at hmem2
      simp at hmem2
    obtain ⟨err, herr, hshp⟩ :=
      parallelGroupedRun_error (fun err => err = EngineError.raw e)
        none true false arr.length acb (createChunks conc (indexedItems arr))
        hshape hexists
    rw [herr, hshp]

/-- Witness for `error_context_corrected`: `[10, 20, 30]` with the callback
failing at index 1. -/
theorem error_context_corrected_witness :
    (forEachArray [some 10, some 20, some 30]
      (fun _ i => if i = 1 then (CbRes.exn "boom" : CbRes String Unit)
        else .ret none) { breakOnError := true }).2 =
      .error (.iterAtIndex 1 "boom") ∧
    (forEachArrayAsync [some 10, some 20, some 30]
      (fun _ i => (0, if i = 1 then (CbRes.exn "boom" : CbRes String Unit)
        else .ret none)) { breakOnError := true }).2 =
      .error (.iterAtIndex 1 "boom") ∧
    (forEachArrayChunked [some 10, some 20, some 30]
      (fun _ i => if i = 1 then (CbRes.exn "boom" : CbRes String Unit)
        else .ret none) { chunkSize := 2, breakOnError := true }).2.2 =
      .error (.raw "boom") ∧
    forEachArrayParallel [some 10, some 20, some 30]
      (fun _ i => (0, if i = 1 then (CbRes.exn "boom" : CbRes String Unit)
        else .ret none)) { breakOnError := true, concurrency := 2 } =
      .error (.raw "boom") :=
  error_context_corrected [some 10, some 20, some 30] 1 20 "boom" 2 2 _ _ _
    rfl
    (fun v i hi => by simp [hi])
    (fun v => by simp)
    (fun v i hi => by simp [hi])
    (fun v => by simp)
    (fun v i hi => by simp [hi])
    (fun v => by simp)

/-- Taking while not-`joinAll` over a launch list followed by the barrier
returns the whole launch list. -/
theorem takeWhile_launches (l : List WindowEvent)
    (hl : ∀ ev ∈ l, ev ≠ WindowEvent.joinAll) :
    (l ++ [WindowEvent.joinAll]).takeWhile
      (fun ev => ev != WindowEvent.joinAll) = l := by
  induction l with
  | nil => rfl
  | cons ev rest ih =>
    have hne : ev ≠ WindowEvent.joinAll := hl ev (by simp)
    have hb : (ev != WindowEvent.joinAll) = true := by
      simpa using hne
    simp only [List.cons_append, List.takeWhile_cons, hb]
    simp [ih (fun e he => hl e (by simp [he]))]

/-- Mapping `filterMap` over chunks and flattening equals `filterMap` over
the original list. -/
theorem flatten_map_filterMap {β γ : Type} (f : β → Option γ) (size : Nat)
    (l : List β) :
    ((createChunks size l).map (fun c => c.filterMap f)).flatten =
      l.filterMap f := by
  conv_rhs => rw [← createChunks_flatten size l]
  induction createChunks size l with
  | nil => rfl
  | cons c cs ih =>
    simp only [List.map_cons, List.flatten_cons, List.filterMap_append, ih]

/-- C2 counterexample: for a window of four present elements and
`concurrency = 2`, all four callbacks are launched before the window's only
barrier — four in flight, exceeding `min(chunkSize, concurrency) = 2`. -/
theorem window_batch_barrier_counterexample :
    launchesBeforeFirstJoin (windowEventsConcurrent 2
      ([(0, some 10), (1, some 11), (2, some 12), (3, some 13)] :
        List (Nat × Option Nat))) = 4 ∧
    ¬ (launchesBeforeFirstJoin (windowEventsConcurrent 2
      ([(0, some 10), (1, some 11), (2, some 12), (3, some 13)] :
        List (Nat × Option Nat))) ≤ min 4 2) := by
  constructor
  · rfl
  · decide

/-- C2 (amended): in `forEachChunkedAsync` with `concurrency > 1`, the batch
slicing inserts NO barrier between admission batches: every present element
of the window is launched immediately, in window order, and a single
`Promise.all` barrier joins them at the end of the window.  Consequently the
number of callbacks in flight when the barrier is reached is the number of
present elements of the window (up to `chunkSize`), not
`min(chunkSize, concurrency)`. -/
theorem window_single_barrier {α : Type} (concurrency : Nat)
    (window : List (Nat × Option α)) :
    windowEventsConcurrent concurrency window =
      (window.filterMap (fun p => p.2.map (fun _ => WindowEvent.launch p.1)))
        ++ [WindowEvent.joinAll] ∧
    launchesBeforeFirstJoin (windowEventsConcurrent concurrency window) =
      (window.filterMap (fun p =>
        p.2.map (fun _ => WindowEvent.launch p.1))).length := by
  have hflat := flatten_map_filterMap
    (fun p : Nat × Option α => p.2.map (fun _ => WindowEvent.launch p.1))
    concurrency window
  have hev : windowEventsConcurrent concurrency window =
      (window.filterMap (fun p => p.2.map (fun _ => WindowEvent.launch p.1)))
        ++ [WindowEvent.joinAll] := by
    unfold windowEventsConcurrent
    rw [hflat]
  refine ⟨hev, ?_⟩
  unfold launchesBeforeFirstJoin
  rw [hev, takeWhile_launches]
  intro ev hev2
  obtain ⟨p, _, hp⟩ := List.mem_filterMap.1 hev2
  cases hp2 : p.2 with
  | none => rw [hp2] at hp; simp at hp
  | some v =>
    rw [hp2] at hp
    obtain rfl : WindowEvent.launch p.1 = ev := by simpa using hp
    intro hcontra
    cases hcontra

/-- C6: `forEach` over `[1,2,3,4,5]` with a callback throwing exactly on
element 3.  With `breakOnError := false` the callback fires for all five
elements at indices 0..4 and the call succeeds; with `breakOnError := true`
it fires for 1, 2, 3 only and the call throws a `ForEachError` whose details
carry the failing index 2 and the original error. -/
theorem foreach_break_on_error_continue_and_abort :
    forEachArray oneToFive cbThrowOn3 {} =
      ([(0, some 1), (1, some 2), (2, some 3), (3, some 4), (4, some 5)],
        .ok ()) ∧
    forEachArray oneToFive cbThrowOn3 { breakOnError := true } =
      ([(0, some 1), (1, some 2), (2, some 3)],
        .error (.iterAtIndex 2 "boom")) := by
  constructor <;> rfl

/-- C1 counterexample: on the length-5 sparse array with values at 1 and 3
only, the synchronous `forEachArray` invokes the callback at every index
0,1,2,3,4 (holes reach it as `undefined`), not exactly at indices 1 and 3 as
the claim states. -/
theorem sparse_skip_sync_counterexample :
    ((forEachArray (sparse5 10 20)
        (fun _ _ => (CbRes.ret none : CbRes String Unit)) {}).1.map Prod.fst
      = [0, 1, 2, 3, 4]) ∧
    ¬ ((forEachArray (sparse5 10 20)
        (fun _ _ => (CbRes.ret none : CbRes String Unit)) {}).1.map Prod.fst
      = [1, 3]) := by
  constructor
  · rfl
  · decide

/-- C1 (amended): for the Sequential Engine on the length-5 sparse array with
values only at 1 and 3 and a callback that returns `undefined` and never
throws, `forEachAsync` skips holes entirely — the callback fires exactly
twice, at indices 1 and 3 — whereas the synchronous `forEach` processes every
index, handing the callback `undefined` at the holes 0, 2 and 4. -/
theorem sparse_skip_corrected {α ε ρ : Type} (a b : α)
    (cb : Option α → Nat → CbRes ε ρ) (acb : α → Nat → Nat × CbRes ε ρ)
    (hcb : ∀ v i, cb v i = .ret none)
    (hacb : ∀ v i, (acb v i).2 = .ret none) :
    forEachArray (sparse5 a b) cb {} =
      ([(0, none), (1, some a), (2, none), (3, some b), (4, none)], .ok ()) ∧
    forEachArrayAsync (sparse5 a b) acb {} = ([(1, a), (3, b)], .ok ()) := by
  constructor
  · simp [forEachArray, sparse5, forEachArrayGo, hcb]
  · simp [forEachArrayAsync, sparse5, forEachArrayAsyncGo, hacb, timedOut]

/-- Witness for `sparse_skip_corrected` at a concrete sparse array and
callback. -/
theorem sparse_skip_witness :
    forEachArray (sparse5 1 2)
        (fun _ _ => (CbRes.ret none : CbRes String Unit)) {} =
      ([(0, none), (1, some 1), (2, none), (3, some 2), (4, none)], .ok ()) ∧
    forEachArrayAsync (sparse5 1 2)
        (fun _ _ => ((0, CbRes.ret none) : Nat × CbRes String Unit)) {} =
      ([(1, 1), (3, 2)], .ok ()) :=
  sparse_skip_corrected 1 2 _ _ (fun _ _ => rfl) (fun _ _ => rfl)

/-- C4 counterexample: constructing `forEachLazy(src).filter(p).map(f)` over
a three-element source with default options performs three source-element
reads (the constructor preloads the whole source into the dead `_buffer`),
not zero. -/
theorem lazy_construction_counterexample :
    (lazyChainConstructEffects 3 {}).sourceReads = 3 ∧
    ¬ (lazyChainConstructEffects 3 {}).sourceReads = 0 := by
  constructor
  · rfl
  · decide

/-- C4 (amended): constructing `forEachLazy(source).filter(p).map(f)`
evaluates `p` and `f` zero times, but — with `preloadNext` on, which is the
default — the root constructor eagerly reads `min(length, bufferSize)`
source elements (forward; `min(length, bufferSize + 1)` reversed) into its
preload buffer.  Only `preloadNext := false` makes construction read-free. -/
theorem lazy_construction_effects (len : Nat) (o : LazyOptions) :
    (lazyChainConstructEffects len o).predEvals = 0 ∧
    (lazyChainConstructEffects len o).mapEvals = 0 ∧
    (lazyChainConstructEffects len o).sourceReads =
      (if effPreloadNext o then
        (if o.reverse then min len (effBufferSize o + 1)
          else min len (effBufferSize o))
        else 0) := by
  refine ⟨rfl, rfl, ?_⟩
  have hred : (lazyChainConstructEffects len o).sourceReads =
      arrayLazyConstructReads len o + 0 + 0 := rfl
  rw [hred]
  unfold arrayLazyConstructReads
  by_cases hp : effPreloadNext o
  · rw [if_pos hp, if_pos hp]
    by_cases hr : o.reverse
    · rw [if_pos hr, if_pos hr]
      simp only
      omega
    · rw [if_neg hr, if_neg hr]
      simp only
      omega
  · rw [if_neg hp, if_neg hp]

/-- Setting the appended cell of `l ++ [c]` replaces it. -/
theorem set_append_singleton {β : Type} (l : List β) (c x : β) :
    (l ++ [c]).set l.length x = l ++ [x] := by
  induction l with
  | nil => rfl
  | cons a as ih => simp [List.set, ih]

/-- `getD` on `l ++ [x]` below `l.length` reads `l`. -/
theorem getD_append_left {β : Type} (l : List β) (x : β) (d : β) (n : Nat)
    (h : n < l.length) : (l ++ [x]).getD n d = l.getD n d := by
  induction l generalizing n with
  | nil => simp at h
  | cons a as ih =>
    match n with
    | 0 => rfl
    | n + 1 =>
      simp only [List.length_cons] at h
      simpa using ih n (by omega)

/-- `getD` on `l ++ [x]` at `l.length` reads `x`. -/
theorem getD_append_last {β : Type} (l : List β) (x : β) (d : β) :
    (l ++ [x]).getD l.length d = x := by
  induction l with
  | nil => rfl
  | cons a as ih => simpa using ih

/-- C9: the `reverse` option never mutates the caller's collection.  For the
array-shaped working view `reverse ? array.slice().reverse() : array`
(shared by every array engine): every pre-existing array in the store —
including the caller's — is unchanged, the view holds the reversed (or
original) content, and under `reverse` the view is a fresh reference
distinct from the caller's.  For the map-shaped view
`reverse ? Object.keys(object).reverse() : Object.keys(object)` (shared by
every object engine): the reversal happens on the freshly allocated keys
array, every pre-existing array is unchanged, and the object itself is a
pure value no engine ever writes to. -/
theorem reverse_never_mutates_caller {α : Type} (st : Store α)
    (stk : Store String) (object : List (String × Option α)) (r : Nat)
    (rev : Bool) (hr : r < st.arrays.length) :
    (∀ r2, r2 < st.arrays.length →
      readRef (buildWorkingView st r rev).1 r2 = readRef st r2) ∧
    readRef (buildWorkingView st r rev).1 (buildWorkingView st r rev).2 =
      (if rev then (readRef st r).reverse else readRef st r) ∧
    (rev = true → (buildWorkingView st r rev).2 ≠ r) ∧
    (∀ r2, r2 < stk.arrays.length →
      readRef (buildKeysView stk object rev).1 r2 = readRef stk r2) ∧
    readRef (buildKeysView stk object rev).1 (buildKeysView stk object rev).2
      = (if rev then (object.map Prod.fst).reverse
          else object.map Prod.fst) ∧
    (buildKeysView stk object rev).2 = stk.arrays.length := by
  cases rev with
  | false =>
    have hk : (buildKeysView stk object false).1.arrays =
        stk.arrays ++ [object.map Prod.fst] := rfl
    have hkv : (buildKeysView stk object false).2 = stk.arrays.length := rfl
    refine ⟨fun r2 _ => rfl, rfl, by simp, fun r2 h2 => ?_, ?_, hkv⟩
    · unfold readRef
      rw [hk]
      exact getD_append_left stk.arrays _ [] r2 h2
    · unfold readRef
      rw [hk, hkv, if_neg (by simp)]
      exact getD_append_last stk.arrays _ []
  | true =>
    have hfinal : (buildWorkingView st r true).1.arrays =
        st.arrays ++ [(readRef st r).reverse] := by
      show ((st.arrays ++ [readRef st r]).set st.arrays.length
        ((st.arrays ++ [readRef st r]).getD st.arrays.length []).reverse) =
        st.arrays ++ [(readRef st r).reverse]
      rw [getD_append_last, set_append_singleton]
    have hview : (buildWorkingView st r true).2 = st.arrays.length := rfl
    have hkfinal : (buildKeysView stk object true).1.arrays =
        stk.arrays ++ [(object.map Prod.fst).reverse] := by
      show ((stk.arrays ++ [object.map Prod.fst]).set stk.arrays.length
        ((stk.arrays ++ [object.map Prod.fst]).getD stk.arrays.length
          []).reverse) = stk.arrays ++ [(object.map Prod.fst).reverse]
      rw [getD_append_last, set_append_singleton]
    have hkview : (buildKeysView stk object true).2 = stk.arrays.length := rfl
    refine ⟨fun r2 h2 => ?_, ?_, fun _ => ?_, fun r2 h2 => ?_, ?_, hkview⟩
    · unfold readRef
      rw [hfinal]
      exact getD_append_left st.arrays _ [] r2 h2
    · unfold readRef
      rw [hview, hfinal, if_pos rfl]
      exact getD_append_last st.arrays _ []
    · rw [hview]
      omega
    · unfold readRef
      rw [hkfinal]
      exact getD_append_left stk.arrays _ [] r2 h2
    · unfold readRef
      rw [hkview, hkfinal, if_pos rfl]
      exact getD_append_last stk.arrays _ []

/-- Witness for `reverse_never_mutates_caller`: a store holding the caller's
array `[1,2,3]` and an empty keys store. -/
theorem reverse_never_mutates_caller_witness :
    (∀ r2, r2 < (Store.mk [[1, 2, 3]] : Store Nat).arrays.length →
      readRef (buildWorkingView (Store.mk [[1, 2, 3]]) 0 true).1 r2 =
        readRef (Store.mk [[1, 2, 3]]) r2) ∧
    readRef (buildWorkingView (Store.mk [[1, 2, 3]]) 0 true).1
        (buildWorkingView (Store.mk [[1, 2, 3]] : Store Nat) 0 true).2 =
      (if true then (readRef (Store.mk [[1, 2, 3]] : Store Nat) 0).reverse
        else readRef (Store.mk [[1, 2, 3]]) 0) ∧
    (true = true →
      (buildWorkingView (Store.mk [[1, 2, 3]] : Store Nat) 0 true).2 ≠ 0) ∧
    (∀ r2, r2 < (Store.mk [] : Store String).arrays.length →
      readRef (buildKeysView (Store.mk []) [("a", some 1)] true).1 r2 =
        readRef (Store.mk []) r2) ∧
    readRef (buildKeysView (Store.mk []) [("a", some 1)] true).1
        (buildKeysView (Store.mk [] : Store String)
          [("a", (some 1 : Option Nat))] true).2 =
      (if true then ([("a", (some 1 : Option Nat))].map Prod.fst).reverse
        else [("a", (some 1 : Option Nat))].map Prod.fst) ∧
    (buildKeysView (Store.mk [] : Store String)
      [("a", (some 1 : Option Nat))] true).2 =
      (Store.mk [] : Store String).arrays.length :=
  reverse_never_mutates_caller (Store.mk [[1, 2, 3]]) (Store.mk [])
    [("a", some 1)] 0 true (by decide)

/-- Draining from a done-state yields nothing. -/
theorem toArrayFrom_none {α : Type} {it : PIter α} {s s2 : it.σ}
    (h : it.next s = (s2, none)) : toArrayFrom it s = [] := by
  rw [toArrayFrom.eq_def]
  split
  · rfl
  · rename_i s3 v hs3
    rw [h] at hs3
    exact absurd (Prod.mk.inj hs3).2 (by simp)

/-- Draining after a successful pull collects the value. -/
theorem toArrayFrom_some {α : Type} {it : PIter α} {s s2 : it.σ} {v : α}
    (h : it.next s = (s2, some v)) :
    toArrayFrom it s = v :: toArrayFrom it s2 := by
  conv_lhs => rw [toArrayFrom.eq_def]
  split
  · rename_i s3 hs3
    rw [h] at hs3
    exact absurd (Prod.mk.inj hs3).2 (by simp)
  · rename_i s3 v2 hs3
    rw [h] at hs3
    obtain ⟨he1, he2⟩ := Prod.mk.inj hs3
    simp only [Option.some.injEq] at he2
    rw [he1, he2]

/-- States with equal one-step behavior drain equally. -/
theorem toArrayFrom_congr {α : Type} {it : PIter α} {s1 s2 : it.σ}
    (h : it.next s1 = it.next s2) : toArrayFrom it s1 = toArrayFrom it s2 := by
  rcases hn2 : it.next s2 with ⟨s3, r⟩
  rw [hn2] at h
  cases r with
  | none => rw [toArrayFrom_none h, toArrayFrom_none hn2]
  | some v => rw [toArrayFrom_some h, toArrayFrom_some hn2]

/-- `filter` forwards upstream exhaustion. -/
theorem filterNext_none {σ α : Type} {next : σ → σ × Option α}
    {measure : σ → Nat} {hm : ∀ s v, (next s).2 = some v →
      measure (next s).1 < measure s} {p : α → Bool} {s s2 : σ}
    (h : next s = (s2, none)) :
    filterNext next measure hm p s = (s2, none) := by
  rw [filterNext.eq_def]
  split
  · rename_i s3 hs3
    rw [h] at hs3
    obtain ⟨he1, _⟩ := Prod.mk.inj hs3
    rw [he1]
  · rename_i s3 v hs3
    rw [h] at hs3
    exact absurd (Prod.mk.inj hs3).2 (by simp)

/-- `filter` yields an accepted upstream value. -/
theorem filterNext_someTrue {σ α : Type} {next : σ → σ × Option α}
    {measure : σ → Nat} {hm : ∀ s v, (next s).2 = some v →
      measure (next s).1 < measure s} {p : α → Bool} {s s2 : σ} {v : α}
    (h : next s = (s2, some v)) (hp : p v = true) :
    filterNext next measure hm p s = (s2, some v) := by
  rw [filterNext.eq_def]
  split
  · rename_i s3 hs3
    rw [h] at hs3
    exact absurd (Prod.mk.inj hs3).2 (by simp)
  · rename_i s3 v2 hs3
    rw [h] at hs3
    obtain ⟨he1, he2⟩ := Prod.mk.inj hs3
    simp only [Option.some.injEq] at he2
    rw [← he1, ← he2, if_pos hp]

/-- `filter` keeps pulling past a rejected upstream value. -/
theorem filterNext_someFalse {σ α : Type} {next : σ → σ × Option α}
    {measure : σ → Nat} {hm : ∀ s v, (next s).2 = some v →
      measure (next s).1 < measure s} {p : α → Bool} {s s2 : σ} {v : α}
    (h : next s = (s2, some v)) (hp : p v = false) :
    filterNext next measure hm p s = filterNext next measure hm p s2 := by
  conv_lhs => rw [filterNext.eq_def]
  split
  · rename_i s3 hs3
    rw [h] at hs3
    exact absurd (Prod.mk.inj hs3).2 (by simp)
  · rename_i s3 v2 hs3
    rw [h] at hs3
    obtain ⟨he1, he2⟩ := Prod.mk.inj hs3
    simp only [Option.some.injEq] at he2
    rw [← he1, ← he2, if_neg (by rw [hp]; simp)]

/-- The skip loop forwards upstream exhaustion without counting it. -/
theorem skipNext_loopNone {σ α : Type} {next : σ → σ × Option α}
    {measure : σ → Nat} {hm : ∀ s v, (next s).2 = some v →
      measure (next s).1 < measure s} {count : Nat} {s s2 : σ} {sk : Nat}
    (hsk : sk < count) (h : next s = (s2, none)) :
    skipNext next measure hm count (s, sk) = ((s2, sk), none) := by
  rw [skipNext.eq_def]
  rw [if_pos (by simpa using hsk)]
  split
  · rename_i s3 hs3
    rw [h] at hs3
    obtain ⟨he1, _⟩ := Prod.mk.inj hs3
    rw [he1]
  · rename_i s3 v hs3
    rw [h] at hs3
    exact absurd (Prod.mk.inj hs3).2 (by simp)

/-- The skip loop discards a pulled value and counts it. -/
theorem skipNext_loopSome {σ α : Type} {next : σ → σ × Option α}
    {measure : σ → Nat} {hm : ∀ s v, (next s).2 = some v →
      measure (next s).1 < measure s} {count : Nat} {s s2 : σ} {sk : Nat}
    {v : α} (hsk : sk < count) (h : next s = (s2, some v)) :
    skipNext next measure hm count (s, sk) =
      skipNext next measure hm count (s2, sk + 1) := by
  conv_lhs => rw [skipNext.eq_def]
  rw [if_pos (by simpa using hsk)]
  split
  · rename_i s3 hs3
    rw [h] at hs3
    exact absurd (Prod.mk.inj hs3).2 (by simp)
  · rename_i s3 v2 hs3
    rw [h] at hs3
    obtain ⟨he1, _⟩ := Prod.mk.inj hs3
    rw [← he1]

/-- Past the skip quota the stage delegates a single upstream pull. -/
theorem skipNext_delegate {σ α : Type} {next : σ → σ × Option α}
    {measure : σ → Nat} {hm : ∀ s v, (next s).2 = some v →
      measure (next s).1 < measure s} {count : Nat} {s : σ} {sk : Nat}
    (hsk : ¬ sk < count) :
    skipNext next measure hm count (s, sk) =
      (((next s).1, sk), (next s).2) := by
  rw [skipNext.eq_def]
  rw [if_neg (by simpa using hsk)]

/-- `toArrayFrom` over `filter` is `List.filter` of the upstream drain. -/
theorem toArrayFrom_filter {α : Type} (it : PIter α) (p : α → Bool)
    (s0 : it.σ) :
    toArrayFrom (filterIter it p) s0 = (toArrayFrom it s0).filter p := by
  rcases hns : it.next s0 with ⟨s2, r⟩
  cases r with
  | none =>
    rw [toArrayFrom_none
      (show (filterIter it p).next s0 = (s2, none) from filterNext_none hns),
      toArrayFrom_none hns]
    rfl
  | some v =>
    have hlt : it.measure s2 < it.measure s0 := by
      have := it.hmeas s0 v (by rw [hns])
      rw [hns] at this
      simpa using this
    rw [toArrayFrom_some hns]
    by_cases hp : p v
    · rw [toArrayFrom_some
        (show (filterIter it p).next s0 = (s2, some v) from
          filterNext_someTrue hns hp)]
      rw [toArrayFrom_filter it p s2]
      simp [hp]
    · have hcongr := toArrayFrom_congr
        (show (filterIter it p).next s0 = (filterIter it p).next s2 from
          filterNext_someFalse hns (by simpa using hp))
      rw [hcongr, toArrayFrom_filter it p s2]
      simp [hp]
termination_by it.measure s0
decreasing_by all_goals exact hlt

/-- `toArrayFrom` over `map` is `List.map` of the upstream drain. -/
theorem toArrayFrom_map {α β : Type} (it : PIter α) (f : α → β)
    (s0 : it.σ) :
    toArrayFrom (mapIter it f) s0 = (toArrayFrom it s0).map f := by
  rcases hns : it.next s0 with ⟨s2, r⟩
  cases r with
  | none =>
    have hm2 : (mapIter it f).next s0 = (s2, none) := by
      show mapNext it.next f s0 = _
      unfold mapNext
      rw [hns]
    rw [toArrayFrom_none hm2, toArrayFrom_none hns]
    rfl
  | some v =>
    have hlt : it.measure s2 < it.measure s0 := by
      have := it.hmeas s0 v (by rw [hns])
      rw [hns] at this
      simpa using this
    have hm2 : (mapIter it f).next s0 = (s2, some (f v)) := by
      show mapNext it.next f s0 = _
      unfold mapNext
      rw [hns]
    rw [toArrayFrom_some hm2, toArrayFrom_some hns,
      toArrayFrom_map it f s2]
    rfl
termination_by it.measure s0
decreasing_by all_goals exact hlt

/-- `toArrayFrom` over `take` is `List.take` of the upstream drain. -/
theorem toArrayFrom_take {α : Type} (it : PIter α) (count : Nat)
    (s0 : it.σ) (tkn : Nat) :
    toArrayFrom (takeIter it count) (s0, tkn) =
      (toArrayFrom it s0).take (count - tkn) := by
  by_cases htk : count ≤ tkn
  · have hdone : (takeIter it count).next (s0, tkn) = ((s0, tkn), none) := by
      show takeNext it.next count (s0, tkn) = _
      unfold takeNext
      rw [if_pos (by simpa using htk)]
    rw [toArrayFrom_none hdone]
    rw [show count - tkn = 0 by omega]
    simp
  · rcases hns : it.next s0 with ⟨s2, r⟩
    cases r with
    | none =>
      have hdone : (takeIter it count).next (s0, tkn) = ((s2, tkn), none) := by
        show takeNext it.next count (s0, tkn) = _
        unfold takeNext
        rw [if_neg (by simpa using htk), hns]
      rw [toArrayFrom_none hdone, toArrayFrom_none hns]
      simp
    | some v =>
      have hlt : it.measure s2 < it.measure s0 := by
        have := it.hmeas s0 v (by rw [hns])
        rw [hns] at this
        simpa using this
      have hstep : (takeIter it count).next (s0, tkn) =
          ((s2, tkn + 1), some v) := by
        show takeNext it.next count (s0, tkn) = _
        unfold takeNext
        rw [if_neg (by simpa using htk), hns]
      rw [toArrayFrom_some hstep, toArrayFrom_some hns,
        toArrayFrom_take it count s2 (tkn + 1)]
      rw [show count - tkn = (count - (tkn + 1)) + 1 by omega,
        List.take_succ_cons]
termination_by it.measure s0
decreasing_by all_goals exact hlt

/-- `toArrayFrom` over `skip` is `List.drop` of the upstream drain. -/
theorem toArrayFrom_skip {α : Type} (it : PIter α) (count : Nat)
    (s0 : it.σ) (sk : Nat) :
    toArrayFrom (skipIter it count) (s0, sk) =
      (toArrayFrom it s0).drop (count - sk) := by
  rcases hns : it.next s0 with ⟨s2, r⟩
  by_cases hsk : sk < count
  · cases r with
    | none =>
      have hdone : (skipIter it count).next (s0, sk) = ((s2, sk), none) :=
        skipNext_loopNone hsk hns
      rw [toArrayFrom_none hdone, toArrayFrom_none hns]
      simp
    | some v =>
      have hlt : it.measure s2 < it.measure s0 := by
        have := it.hmeas s0 v (by rw [hns])
        rw [hns] at this
        simpa using this
      have hcongr := toArrayFrom_congr
        (show (skipIter it count).next (s0, sk) =
            (skipIter it count).next (s2, sk + 1) from
          skipNext_loopSome hsk hns)
      rw [hcongr, toArrayFrom_skip it count s2 (sk + 1),
        toArrayFrom_some hns,
        show count - sk = (count - (sk + 1)) + 1 by omega,
        List.drop_succ_cons]
  · have hcs : count - sk = 0 := by omega
    rw [hcs]
    have hdel : (skipIter it count).next (s0, sk) = ((s2, sk), r) := by
      have := @skipNext_delegate _ _ it.next it.measure it.hmeas count s0
        sk hsk
      rw [hns] at this
      exact this
    cases r with
    | none =>
      rw [toArrayFrom_none hdel, toArrayFrom_none hns]
      rfl
    | some v =>
      have hlt : it.measure s2 < it.measure s0 := by
        have := it.hmeas s0 v (by rw [hns])
        rw [hns] at this
        simpa using this
      rw [toArrayFrom_some hdel, toArrayFrom_some hns,
        toArrayFrom_skip it count s2 sk]
      rw [show count - sk = 0 by omega]
      rfl
termination_by it.measure s0
decreasing_by all_goals exact hlt

/-- Draining the forward array root from index `k` yields the elements from
`k` on. -/
theorem toArrayFrom_array_fwd {α : Type} [Inhabited α] (arr : List α)
    (k0 : Nat) :
    toArrayFrom (arrayIter arr false) ((k0 : Nat) : Int) = arr.drop k0 := by
  by_cases hk : arr.length ≤ k0
  · have hnext : (arrayIter arr false).next ((k0 : Nat) : Int) =
        (((k0 : Nat) : Int), none) := by
      show arrayNext arr false ((k0 : Nat) : Int) = _
      unfold arrayNext
      rw [if_neg (by simp), if_pos (by exact_mod_cast hk)]
    rw [toArrayFrom_none hnext, List.drop_eq_nil_of_le hk]
  · have hlt : k0 < arr.length := by omega
    have hnext : (arrayIter arr false).next ((k0 : Nat) : Int) =
        (((k0 + 1 : Nat) : Int), some (arr.getD k0 default)) := by
      show arrayNext arr false ((k0 : Nat) : Int) = _
      unfold arrayNext
      rw [if_neg (by simp), if_neg (by push_cast; omega)]
      simp only [Int.toNat_natCast]
      rw [show ((k0 : Nat) : Int) + 1 = ((k0 + 1 : Nat) : Int) by push_cast; ring]
    rw [toArrayFrom_some hnext, toArrayFrom_array_fwd arr (k0 + 1)]
    rw [List.getD_eq_getElem arr default hlt]
    exact (List.drop_eq_getElem_cons hlt).symm
termination_by arr.length - k0
decreasing_by omega

/-- C7: the lazy pipeline of property P9 —
`forEachLazy([1..10]).filter(even).map(double).skip(1).take(3).toArray()` —
drains to exactly `[8, 12, 16]`.  (Each stage's initial counter is `0`, the
root's initial index is `arrayIterInit`.) -/
theorem lazy_chain_p9 :
    toArrayFrom (takeIter (skipIter (mapIter (filterIter
        (arrayIter [1, 2, 3, 4, 5, 6, 7, 8, 9, 10] false)
        (fun x => x % 2 == 0)) (fun x => x * 2)) 1) 3)
      ((arrayIterInit ([1, 2, 3, 4, 5, 6, 7, 8, 9, 10] : List Nat) false, 0),
        0) = [8, 12, 16] := by
  have hinit : arrayIterInit ([1, 2, 3, 4, 5, 6, 7, 8, 9, 10] : List Nat)
      false = ((0 : Nat) : Int) := rfl
  rw [hinit, toArrayFrom_take, toArrayFrom_skip, toArrayFrom_map,
    toArrayFrom_filter, toArrayFrom_array_fwd]
  decide

/-- The array root never revives: its done-report leaves the index in
place, so the bound check fails again on every later pull. -/
theorem arrayNext_neverRevives {α : Type} [Inhabited α] (arr : List α)
    (rev : Bool) : NeverRevives (arrayNext arr rev) := by
  intro s h
  cases rev
  · by_cases hs : (arr.length : Int) ≤ s
    · have hstep : arrayNext arr false s = (s, none) := by
        unfold arrayNext
        rw [if_neg (by simp), if_pos hs]
      rw [hstep]
      show (arrayNext arr false s).2 = none
      rw [hstep]
    · have hstep : arrayNext arr false s =
          (s + 1, some (arr.getD s.toNat default)) := by
        unfold arrayNext
        rw [if_neg (by simp), if_neg hs]
      rw [hstep] at h
      simp at h
  · by_cases hs : s < 0
    · have hstep : arrayNext arr true s = (s, none) := by
        unfold arrayNext
        rw [if_pos rfl, if_pos hs]
      rw [hstep]
      show (arrayNext arr true s).2 = none
      rw [hstep]
    · have hstep : arrayNext arr true s =
          (s - 1, some (arr.getD s.toNat default)) := by
        unfold arrayNext
        rw [if_pos rfl, if_neg hs]
      rw [hstep] at h
      simp at h

/-- A done-report of the object root puts the cursor at or past the end of
the key list. -/
theorem objectNextGo_none_ge {γ : Type} (entries : List (String × γ))
    (keys : List String) :
    ∀ (n idx idx2 : Nat), keys.length - idx = n →
      objectNextGo entries keys idx = (idx2, none) →
      keys.length ≤ idx2 := by
  intro n
  induction n using Nat.strong_induction_on with
  | _ n ih =>
    intro idx idx2 hn heq
    unfold objectNextGo at heq
    split at heq
    · rename_i hlt
      split at heq
      · exact absurd (Prod.mk.inj heq).2 (by simp)
      · exact ih (keys.length - (idx + 1)) (by omega) (idx + 1) idx2 rfl heq
    · rename_i hge
      obtain ⟨he1, _⟩ := Prod.mk.inj heq
      omega

/-- The object root never revives. -/
theorem objectNextGo_neverRevives {γ : Type} (entries : List (String × γ))
    (keys : List String) : NeverRevives (objectNextGo entries keys) := by
  intro idx h
  have hge := objectNextGo_none_ge entries keys
    (keys.length - idx) idx (objectNextGo entries keys idx).1 rfl
    (Prod.ext rfl h)
  unfold objectNextGo
  rw [dif_neg (by omega)]

/-- `filter` never revives when its upstream never revives. -/
theorem filterNext_neverRevives {σ α : Type} {next : σ → σ × Option α}
    {measure : σ → Nat}
    {hm : ∀ s v, (next s).2 = some v → measure (next s).1 < measure s}
    {p : α → Bool} (hup : NeverRevives next) :
    NeverRevives (filterNext next measure hm p) := by
  have key : ∀ (n : Nat) (s s2 : σ), measure s = n →
      filterNext next measure hm p s = (s2, none) →
      (filterNext next measure hm p s2).2 = none := by
    intro n
    induction n using Nat.strong_induction_on with
    | _ n ih =>
      intro s s2 hn heq
      rcases hns : next s with ⟨s3, r⟩
      cases r with
      | none =>
        rw [filterNext_none hns] at heq
        obtain ⟨he1, _⟩ := Prod.mk.inj heq
        subst he1
        have h2 : (next (next s).1).2 = none := hup s (by rw [hns])
        rw [hns] at h2
        simp only at h2
        have hpair : next s3 = ((next s3).1, none) := Prod.ext rfl h2
        rw [filterNext_none hpair]
      | some v =>
        by_cases hp : p v
        · rw [filterNext_someTrue hns hp] at heq
          exact absurd (Prod.mk.inj heq).2 (by simp)
        · rw [filterNext_someFalse hns (by simpa using hp)] at heq
          have hlt : measure s3 < measure s := by
            have := hm s v (by rw [hns])
            rw [hns] at this
            simpa using this
          exact ih (measure s3) (by omega) s3 s2 rfl heq
  intro s h
  exact key (measure s) s _ rfl (Prod.ext rfl h)

/-- `map` never revives when its upstream never revives. -/
theorem mapNext_neverRevives {σ α β : Type} {next : σ → σ × Option α}
    {f : α → β} (hup : NeverRevives next) : NeverRevives (mapNext next f) := by
  intro s h
  rcases hns : next s with ⟨s2, r⟩
  cases r with
  | none =>
    have hstep : mapNext next f s = (s2, none) := by
      unfold mapNext
      rw [hns]
    rw [hstep]
    have h2 : (next (next s).1).2 = none := hup s (by rw [hns])
    rw [hns] at h2
    simp only at h2
    have hpair : next s2 = ((next s2).1, none) := Prod.ext rfl h2
    show (mapNext next f s2).2 = none
    unfold mapNext
    rw [hpair]
  | some v =>
    have hstep : mapNext next f s = (s2, some (f v)) := by
      unfold mapNext
      rw [hns]
    rw [hstep] at h
    simp at h

/-- `take` never revives when its upstream never revives. -/
theorem takeNext_neverRevives {σ α : Type} {next : σ → σ × Option α}
    {count : Nat} (hup : NeverRevives next) :
    NeverRevives (takeNext next count) := by
  intro sp h
  by_cases htk : count ≤ sp.2
  · have hstep : takeNext next count sp = (sp, none) := by
      unfold takeNext
      rw [if_pos htk]
    rw [hstep]
    show (takeNext next count sp).2 = none
    rw [hstep]
  · rcases hns : next sp.1 with ⟨s2, r⟩
    cases r with
    | none =>
      have hstep : takeNext next count sp = ((s2, sp.2), none) := by
        unfold takeNext
        rw [if_neg htk, hns]
      rw [hstep]
      show (takeNext next count (s2, sp.2)).2 = none
      unfold takeNext
      rw [if_neg (by simpa using htk)]
      have h2 : (next (next sp.1).1).2 = none := hup sp.1 (by rw [hns])
      rw [hns] at h2
      simp only at h2
      have hpair : next s2 = ((next s2).1, none) := Prod.ext rfl h2
      rw [hpair]
    | some v =>
      have hstep : takeNext next count sp = ((s2, sp.2 + 1), some v) := by
        unfold takeNext
        rw [if_neg htk, hns]
      rw [hstep] at h
      simp at h

/-- `skip` never revives when its upstream never revives. -/
theorem skipNext_neverRevives {σ α : Type} {next : σ → σ × Option α}
    {measure : σ → Nat}
    {hm : ∀ s v, (next s).2 = some v → measure (next s).1 < measure s}
    {count : Nat} (hup : NeverRevives next) :
    NeverRevives (skipNext next measure hm count) := by
  have key : ∀ (n : Nat) (sp sp2 : σ × Nat), measure sp.1 = n →
      skipNext next measure hm count sp = (sp2, none) →
      (skipNext next measure hm count sp2).2 = none := by
    intro n
    induction n using Nat.strong_induction_on with
    | _ n ih =>
      intro sp sp2 hn heq
      rcases hns : next sp.1 with ⟨s3, r⟩
      by_cases hsk : sp.2 < count
      · cases r with
        | none =>
          rw [show sp = (sp.1, sp.2) from rfl, skipNext_loopNone hsk hns]
            at heq
          obtain ⟨he1, _⟩ := Prod.mk.inj heq
          subst he1
          have h2 : (next (next sp.1).1).2 = none := hup sp.1 (by rw [hns])
          rw [hns] at h2
          simp only at h2
          have hpair : next s3 = ((next s3).1, none) := Prod.ext rfl h2
          rw [skipNext_loopNone (by simpa using hsk) hpair]
        | some v =>
          rw [show sp = (sp.1, sp.2) from rfl, skipNext_loopSome hsk hns]
            at heq
          have hlt : measure s3 < measure sp.1 := by
            have := hm sp.1 v (by rw [hns])
            rw [hns] at this
            simpa using this
          exact ih (measure s3) (by omega) (s3, sp.2 + 1) sp2 rfl heq
      · rw [show sp = (sp.1, sp.2) from rfl, skipNext_delegate hsk] at heq
        obtain ⟨he1, he2⟩ := Prod.mk.inj heq
        subst he1
        rw [hns] at he2
        simp only at he2
        subst he2
        rw [hns]
        simp only
        have h2 : (next (next sp.1).1).2 = none := hup sp.1 (by rw [hns])
        rw [hns] at h2
        simp only at h2
        rw [skipNext_delegate (by simpa using hsk), h2]
  intro sp h
  exact key (measure sp.1) sp _ rfl (Prod.ext rfl h)

/-- A stage that never revives reports done on EVERY later pull once it has
reported done. -/
theorem neverRevives_pullN {σ α : Type} {next : σ → σ × Option α}
    (hup : NeverRevives next) :
    ∀ s, (next s).2 = none → ∀ m, (pullN next m (next s).1).2 = none := by
  intro s h0 m
  induction m generalizing s with
  | zero => exact hup s h0
  | succ m ihm =>
    show (pullN next m (next (next s).1).1).2 = none
    exact ihm (next s).1 (hup s h0)

/-- C8: exhaustion is idempotent for every lazy stage.  The array root
(forward or reversed) and the object root never revive; `filter`, `map`,
`take` and `skip` never revive whenever their upstream stage never revives;
and a stage that never revives keeps reporting done on every subsequent
pull after its first done-report. -/
theorem lazy_exhaustion_idempotent {σ α β γ : Type} [Inhabited α]
    (arr : List α) (rev : Bool) (entries : List (String × γ))
    (keys : List String) (next : σ → σ × Option α) (measure : σ → Nat)
    (hm : ∀ s v, (next s).2 = some v → measure (next s).1 < measure s)
    (p : α → Bool) (f : α → β) (count : Nat) :
    NeverRevives (arrayNext arr rev) ∧
    NeverRevives (objectNextGo entries keys) ∧
    (NeverRevives next → NeverRevives (filterNext next measure hm p)) ∧
    (NeverRevives next → NeverRevives (mapNext next f)) ∧
    (NeverRevives next → NeverRevives (takeNext next count)) ∧
    (NeverRevives next → NeverRevives (skipNext next measure hm count)) ∧
    (NeverRevives next → ∀ s, (next s).2 = none →
      ∀ m, (pullN next m (next s).1).2 = none) :=
  ⟨arrayNext_neverRevives arr rev, objectNextGo_neverRevives entries keys,
    filterNext_neverRevives, mapNext_neverRevives, takeNext_neverRevives,
    skipNext_neverRevives, fun hup => neverRevives_pullN hup⟩

/-- Witness for `lazy_exhaustion_idempotent`: a filter over the forward
array root on `[1,2,3]`, and the done-stability of the root from the
exhausted state `7`. -/
theorem lazy_exhaustion_idempotent_witness :
    NeverRevives (filterNext (arrayNext ([1, 2, 3] : List Nat) false)
      (arrayMeasure ([1, 2, 3] : List Nat) false)
      (arrayIter ([1, 2, 3] : List Nat) false).hmeas (fun _ => true)) ∧
    (pullN (arrayNext ([1, 2, 3] : List Nat) false) 5
      ((arrayNext ([1, 2, 3] : List Nat) false 7).1)).2 = none := by
  have h := lazy_exhaustion_idempotent (σ := Int) (β := Nat)
    (γ := Option Nat) ([1, 2, 3] : List Nat) false [("a", some 1)] ["a"]
    (arrayNext ([1, 2, 3] : List Nat) false)
    (arrayMeasure ([1, 2, 3] : List Nat) false)
    (arrayIter ([1, 2, 3] : List Nat) false).hmeas
    (fun _ => true) (fun x => x) 2
  exact ⟨h.2.2.1 h.1, h.2.2.2.2.2.2 h.1 7 rfl 5⟩

/-- With pairwise-distinct keys, membership determines `lookup`. -/
theorem lookup_eq_some_of_nodup {γ : Type} :
    ∀ (entries : List (String × γ)), (entries.map Prod.fst).Nodup →
      ∀ (k : String) (v : γ), (k, v) ∈ entries →
        entries.lookup k = some v := by
  intro entries
  induction entries with
  | nil =>
    intro _ k v hmem
    simp at hmem
  | cons e rest ih =>
    intro hnd k v hmem
    obtain ⟨a, b⟩ := e
    simp only [List.map_cons, List.nodup_cons] at hnd
    rcases List.mem_cons.1 hmem with heq | hrest
    · obtain ⟨rfl, rfl⟩ := Prod.mk.inj heq
      simp [List.lookup]
    · have hka : k ≠ a := by
        intro hcontra
        subst hcontra
        exact hnd.1 (List.mem_map.2 ⟨(k, v), hrest, rfl⟩)
      have hbeq : (k == a) = false := by
        simpa using hka
      simp only [List.lookup, hbeq]
      exact ih hnd.2 k v hrest

/-- Every invocation the sync object loop records carries a key whose value
in the object is defined. -/
theorem forEachObjectGo_mem {α ε ρ : Type}
    (object : List (String × Option α)) (cb : α → String → CbRes ε ρ)
    (opts : ForEachOptions) :
    ∀ (keys : List String) (q : String × α),
      q ∈ (forEachObjectGo object cb opts keys).1 →
      object.lookup q.1 = some (some q.2) := by
  intro keys
  induction keys with
  | nil =>
    intro q hq
    simp [forEachObjectGo] at hq
  | cons key rest ih =>
    intro q hq
    unfold forEachObjectGo at hq
    split at hq
    · exact ih q hq
    · exact ih q hq
    · rename_i v hv
      split at hq
      · rename_i r
        split at hq
        · simp only [List.mem_singleton] at hq
          subst hq
          exact hv
        · rcases List.mem_cons.1 hq with heq | h2
          · subst heq
            exact hv
          · exact ih q h2
      · split at hq
        · simp only [List.mem_singleton] at hq
          subst hq
          exact hv
        · rcases List.mem_cons.1 hq with heq | h2
          · subst heq
            exact hv
          · exact ih q h2

/-- Every invocation the async object loop records carries a key whose value
in the object is defined. -/
theorem forEachObjectAsyncGo_mem {α ε ρ : Type}
    (object : List (String × Option α))
    (acb : α → String → Nat × CbRes ε ρ) (opts : AsyncOptions) :
    ∀ (keys : List String) (q : String × α),
      q ∈ (forEachObjectAsyncGo object acb opts keys).1 →
      object.lookup q.1 = some (some q.2) := by
  intro keys
  induction keys with
  | nil =>
    intro q hq
    simp [forEachObjectAsyncGo] at hq
  | cons key rest ih =>
    intro q hq
    unfold forEachObjectAsyncGo at hq
    split at hq
    · exact ih q hq
    · exact ih q hq
    · rename_i v hv
      split at hq
      · simp only [List.mem_singleton] at hq
        subst hq
        exact hv
      · split at hq
        · rename_i r
          split at hq
          · simp only [List.mem_singleton] at hq
            subst hq
            exact hv
          · rcases List.mem_cons.1 hq with heq | h2
            · subst heq
              exact hv
            · exact ih q h2
        · rename_i e
          split at hq
          · simp only [List.mem_singleton] at hq
            subst hq
            exact hv
          · rcases List.mem_cons.1 hq with heq | h2
            · subst heq
              exact hv
            · exact ih q h2

/-- A key whose value is `undefined` fails the shared admission guard. -/
theorem definedOwnKey_false {α : Type} {object : List (String × Option α)}
    {k : String} (hlook : object.lookup k = some none) :
    definedOwnKey object k = false := by
  unfold definedOwnKey
  rw [hlook]

/-- An undefined-valued key survives no `definedOwnKey` filter. -/
theorem not_mem_filter_definedOwn {α : Type}
    {object : List (String × Option α)} {k : String}
    (hlook : object.lookup k = some none) (l : List String) :
    k ∉ l.filter (definedOwnKey object) := by
  intro hk
  have := List.of_mem_filter hk
  rw [definedOwnKey_false hlook] at this
  simp at this

/-- An undefined-valued key is in no flattened family of `definedOwnKey`
filters. -/
theorem not_mem_flatten_filters {α : Type}
    {object : List (String × Option α)} {k : String}
    (hlook : object.lookup k = some none) (parts : List (List String)) :
    k ∉ (parts.map (fun w => w.filter (definedOwnKey object))).flatten := by
  intro hk
  obtain ⟨c, hc, hkc⟩ := List.mem_flatten.1 hk
  obtain ⟨w, _, rfl⟩ := List.mem_map.1 hc
  exact not_mem_filter_definedOwn hlook w hkc

/-- Draining the forward object root from cursor `idx` yields the entries
from `idx` on (for an object with pairwise-distinct keys). -/
theorem toArrayFrom_object_fwd {γ : Type} (entries : List (String × γ))
    (hnd : (entries.map Prod.fst).Nodup) (idx : Nat) :
    toArrayFrom (objectIter entries false) idx = entries.drop idx := by
  have hkeys : objectKeys entries false = entries.map Prod.fst := rfl
  by_cases hi : idx < entries.length
  · have hilt : idx < (objectKeys entries false).length := by
      rw [hkeys]
      simpa using hi
    have hget : (objectKeys entries false).get ⟨idx, hilt⟩ =
        (entries.get ⟨idx, hi⟩).1 := by
      simp [hkeys]
    have hlook : entries.lookup ((objectKeys entries false).get ⟨idx, hilt⟩)
        = some (entries.get ⟨idx, hi⟩).2 := by
      rw [hget]
      exact lookup_eq_some_of_nodup entries hnd _ _
        (by simpa using List.get_mem entries ⟨idx, hi⟩)
    have hnext : (objectIter entries false).next idx =
        (idx + 1, some (entries.get ⟨idx, hi⟩)) := by
      show objectNextGo entries (objectKeys entries false) idx = _
      unfold objectNextGo
      rw [dif_pos hilt, hlook, hget]
    rw [toArrayFrom_some hnext, toArrayFrom_object_fwd entries hnd (idx + 1)]
    rw [List.drop_eq_getElem_cons hi]
    simp
  · have hnext : (objectIter entries false).next idx = (idx, none) := by
      show objectNextGo entries (objectKeys entries false) idx = _
      unfold objectNextGo
      rw [dif_neg (by rw [hkeys]; simpa using hi)]
    rw [toArrayFrom_none hnext, List.drop_eq_nil_of_le (by omega)]
termination_by entries.length - idx
decreasing_by omega

/-- C10: for a map-shaped collection holding an own enumerable key `k` whose
value is `undefined`, the eager engines — `forEach`, `forEachAsync`,
`forEachChunked`, `forEachChunkedAsync` (either concurrency branch),
`forEachParallel` (both modes) — never invoke the callback for `k`, whereas
`forEachLazy`'s object iterator and `forEachGenerator` DO yield the entry
`[k, undefined]`: the lazy interfaces apply no undefined-value skip. -/
theorem undefined_value_skip {α ε ρ : Type}
    (object : List (String × Option α)) (k : String)
    (cb : α → String → CbRes ε ρ) (acb : α → String → Nat × CbRes ε ρ)
    (opts : ForEachOptions) (aopts : AsyncOptions) (cs conc : Nat)
    (rev : Bool) (hnd : (object.map Prod.fst).Nodup)
    (hmem : (k, none) ∈ object) :
    (∀ v, (k, v) ∉ (forEachObject object cb opts).1) ∧
    (∀ v, (k, v) ∉ (forEachObjectAsync object acb aopts).1) ∧
    k ∉ objChunkedInvokedKeys object cs rev ∧
    k ∉ objChunkedAsyncInvokedKeys object cs conc rev ∧
    k ∉ objParallelGroupedInvokedKeys object conc rev ∧
    k ∉ objParallelOrderedInvokedKeys object rev ∧
    (k, none) ∈ toArrayFrom (objectIter object false) ((0 : Nat)) ∧
    (k, none) ∈ forEachGeneratorObj object rev := by
  have hlook : object.lookup k = some none :=
    lookup_eq_some_of_nodup object hnd k none hmem
  refine ⟨?_, ?_, ?_, ?_, ?_, ?_, ?_, ?_⟩
  · intro v hk
    have := forEachObjectGo_mem object cb opts _ (k, v) hk
    rw [hlook] at this
    simp at this
  · intro v hk
    have := forEachObjectAsyncGo_mem object acb aopts _ (k, v) hk
    rw [hlook] at this
    simp at this
  · exact not_mem_flatten_filters hlook _
  · unfold objChunkedAsyncInvokedKeys
    by_cases hc : 1 < conc
    · rw [if_pos hc]
      intro hk
      obtain ⟨c, hc2, hkc⟩ := List.mem_flatten.1 hk
      obtain ⟨w, _, rfl⟩ := List.mem_map.1 hc2
      exact not_mem_flatten_filters hlook _ hkc
    · rw [if_neg hc]
      exact not_mem_flatten_filters hlook _
  · exact not_mem_flatten_filters hlook _
  · exact not_mem_filter_definedOwn hlook _
  · rw [toArrayFrom_object_fwd object hnd 0]
    simpa using hmem
  · unfold forEachGeneratorObj
    apply List.mem_filterMap.2
    refine ⟨k, ?_, by rw [hlook]; rfl⟩
    have hk : k ∈ object.map Prod.fst :=
      List.mem_map_of_mem Prod.fst hmem
    cases rev with
    | false =>
      rw [if_neg (by simp)]
      exact hk
    | true =>
      rw [if_pos rfl]
      exact List.mem_reverse.2 hk

/-- Witness for `undefined_value_skip`: the object `{a: 1, b: undefined}`
with `k = "b"`. -/
theorem undefined_value_skip_witness :
    (∀ v, (("b", v) : String × Nat) ∉
      (forEachObject [("a", some 1), ("b", none)]
        (fun _ _ => (CbRes.ret none : CbRes String Unit)) {}).1) ∧
    (∀ v, (("b", v) : String × Nat) ∉
      (forEachObjectAsync [("a", some 1), ("b", none)]
        (fun _ _ => ((0, CbRes.ret none) : Nat × CbRes String Unit)) {}).1) ∧
    "b" ∉ objChunkedInvokedKeys [("a", (some 1 : Option Nat)), ("b", none)]
      2 false ∧
    "b" ∉ objChunkedAsyncInvokedKeys
      [("a", (some 1 : Option Nat)), ("b", none)] 2 2 false ∧
    "b" ∉ objParallelGroupedInvokedKeys
      [("a", (some 1 : Option Nat)), ("b", none)] 2 false ∧
    "b" ∉ objParallelOrderedInvokedKeys
      [("a", (some 1 : Option Nat)), ("b", none)] false ∧
    ("b", (none : Option Nat)) ∈
      toArrayFrom (objectIter [("a", some 1), ("b", none)] false)
        ((0 : Nat)) ∧
    ("b", (none : Option Nat)) ∈
      forEachGeneratorObj [("a", some 1), ("b", none)] false :=
  undefined_value_skip [("a", some 1), ("b", none)] "b" _ _ {} {} 2 2 false
    (by decide) (by decide)

end ForEachSpec
